import Mathlib

/-!
Shallow embedding of the SODA (Self-Organised Direction-Aware Data
Partitioning) engine of `src/Class/lathes_model.py`, over exact real
arithmetic.  Matrices are lists of rows (`List (List ℝ)`).

Modelling conventions, used consistently below:
* Python `x ** 0.5` on a nonnegative float is `Real.sqrt x`; the angular
  term `((1 - r) ** 2) ** .25` is `Real.sqrt (Real.sqrt ((1 - r) ^ 2))`
  (for a nonnegative argument `a`, `a ** .25 = sqrt (sqrt a)`).
* Paths where the Python code raises (`max()` of an empty sequence in
  `ChessBoard_PeakIdentification_njit`, indexing `dist3[0]` with an empty
  center list in `cloud_member_recruitment_njit`, indexing row 0 of an
  empty matrix in `chessboard_division_njit`) are modelled with `Option`:
  the function returns `none` exactly where the source raises.
* The float `NaN` produced by `0.0 / 0.0` in `grid_set`'s row
  normalisation (the only place the source subsequently tests for NaN
  with `np.isnan`) is modelled by `nanDiv : ℝ → ℝ → Option ℝ`, `none`
  standing for NaN; the source then overwrites those entries with 1.
* `numpy`'s `argsort()[::-1]` is modelled by a deterministic insertion
  sort on indices (descending by key); for distinct keys this agrees with
  numpy, for tied keys numpy's quicksort order is unspecified and the
  model fixes one definite order.
* Fixed-capacity preallocated box arrays with a running fill count
  (`contador`) are modelled as lists that grow by one box per spawn; the
  source's final `[:contador]` trim is then the identity.
-/

namespace Lathes

noncomputable section

open scoped Classical

/-- Dot product of two rows (`zipWith` truncates at the shorter row, which
never occurs on the well-formed rectangular inputs the source receives). -/
def dotL (a b : List ℝ) : ℝ := (List.zipWith (fun x y => x * y) a b).sum

/-- Sum of squared components of a row, `np.sum(np.power(r, 2))`. -/
def sqNormL (a : List ℝ) : ℝ := dotL a a

/-- Componentwise sum of two rows. -/
def vAdd (a b : List ℝ) : List ℝ := List.zipWith (fun x y => x + y) a b

/-- Componentwise difference of two rows. -/
def vSub (a b : List ℝ) : List ℝ := List.zipWith (fun x y => x - y) a b

/-- Columnwise sum of a matrix with `W` columns. -/
def vSum (W : ℕ) (rows : List (List ℝ)) : List ℝ :=
  rows.foldl vAdd (List.replicate W 0)

/-- Number of columns of the matrix (`data.shape[1]`). -/
def matW (data : List (List ℝ)) : ℕ := (data.headD []).length

/-- Columnwise mean `data.mean(0)`. -/
def colMean (data : List (List ℝ)) : List ℝ :=
  (vSum (matW data) data).map (fun x => (1 / (data.length : ℝ)) * x)

/-- Division producing NaN, modelled as `none`.  In `grid_set` the
denominator is the row's own Euclidean norm, so a zero denominator forces
a zero numerator and the result is NaN (`0.0 / 0.0`), never infinity. -/
def nanDiv (x y : ℝ) : Option ℝ :=
  if y = 0 ∧ x = 0 then none else some (x / y)

/-- One row of the INTENDED normalised matrix of `grid_set` (lines 41-46
of `lathes_model.py`): the row divided by its own Euclidean norm, with
each NaN entry (detected by `np.isnan` in the source) overwritten by 1.
The source's actual guard assignment is mis-indexed (see `applyNanGuard`
and claim C9); on matrices with no zero-norm row the guard never fires
and this intended form coincides with the actual code
(`grid_newData_agrees_actual`), which is the only regime the pipeline
theorems below rely on. -/
def normRowGuard (r : List ℝ) : List ℝ :=
  r.map (fun x => (nanDiv x (Real.sqrt (sqNormL r))).getD 1)

/-- The `new_data` matrix of `grid_set` in its intended per-entry-guard
form (see `normRowGuard`); `grid_newData_actual` below models the
source's actual, mis-indexed guard. -/
def grid_newData (data : List (List ℝ)) : List (List ℝ) :=
  data.map normRowGuard

/-- The pre-guard normalised matrix of `grid_set` (lines 41-44): each
entry divided by its row's norm, `none` standing for the NaN produced by
`0.0 / 0.0` on a zero-norm row. -/
def rawNormalized (data : List (List ℝ)) : List (List (Option ℝ)) :=
  data.map (fun r => r.map (fun x => nanDiv x (Real.sqrt (sqNormL r))))

/-- NaN positions within one row, paired with the row index `i`; the
column counter `j` advances along the row. -/
def nanCoordsRow (i : ℕ) : ℕ → List (Option ℝ) → List (ℕ × ℕ)
  | _, [] => []
  | j, none :: rest => (i, j) :: nanCoordsRow i (j + 1) rest
  | j, some _ :: rest => nanCoordsRow i (j + 1) rest

/-- Row-major traversal collecting all NaN coordinates. -/
def nanCoordsGo : ℕ → List (List (Option ℝ)) → List (ℕ × ℕ)
  | _, [] => []
  | i, row :: rest => nanCoordsRow i 0 row ++ nanCoordsGo (i + 1) rest

/-- `np.argwhere(np.isnan(new_data))` (line 45): the NaN coordinate
pairs in row-major order. -/
def nanCoords (m : List (List (Option ℝ))) : List (ℕ × ℕ) :=
  nanCoordsGo 0 m

/-- A whole row overwritten by the broadcast scalar 1. -/
def onesRow (r : List (Option ℝ)) : List (Option ℝ) :=
  r.map (fun _ => some 1)

/-- Write one matrix entry. -/
def setEntry (m : List (List (Option ℝ))) (i j : ℕ) (v : Option ℝ) :
    List (List (Option ℝ)) :=
  m.set i ((m.getD i []).set j v)

/-- The guard assignment `if tuple(seq[::]): new_data[tuple(seq[::])] = 1`
of line 46, modelled faithfully.  `tuple(seq)` is a tuple of the K
coordinate PAIRS, which numpy advanced indexing reads as one index array
per AXIS (the correct idiom would have been `tuple(seq.T)`), so:
K = 0 — the tuple is falsy, nothing is written; K = 1 — the single pair
`(r, c)` indexes axis 0 and the whole rows `r` and `c` are overwritten
with 1; K = 2 — the pairs `(r0, c0)`, `(r1, c1)` index axis 0 and
axis 1, writing entries `(r0, r1)` and `(c0, c1)` (bounds-checked per
axis); K ≥ 3 — `IndexError: too many indices` on the 2-D array, modelled
as `none`. -/
def applyNanGuard (m : List (List (Option ℝ))) :
    List (ℕ × ℕ) → Option (List (List (Option ℝ)))
  | [] => some m
  | [(r, c)] =>
      if r < m.length ∧ c < m.length then
        some ((m.set r (onesRow (m.getD r []))).set c (onesRow (m.getD c [])))
      else none
  | [(r0, c0), (r1, c1)] =>
      if r0 < m.length ∧ c0 < m.length ∧ r1 < (m.headD []).length ∧
          c1 < (m.headD []).length then
        some (setEntry (setEntry m r0 r1 (some 1)) c0 c1 (some 1))
      else none
  | _ => none

/-- Lines 41-46 of `grid_set` modelled faithfully end to end: the
column division, the NaN-coordinate collection and the mis-indexed guard
assignment; `none` where the source raises `IndexError`, and an inner
`none` entry is a NaN that survived the guard. -/
def grid_newData_actual (data : List (List ℝ)) :
    Option (List (List (Option ℝ))) :=
  applyNanGuard (rawNormalized data) (nanCoords (rawNormalized data))

/-- Return record of `grid_set`. -/
structure GridOut where
  X1 : ℝ
  AvD1 : List ℝ
  AvD2 : List ℝ
  grid_trad : ℝ
  grid_angl : ℝ

/-- `grid_set(data, N)` (Stage 1: Preparation). -/
def grid_set (data : List (List ℝ)) (N : ℝ) : GridOut :=
  let L : ℝ := (data.length : ℝ)
  let AvD1 := colMean data
  let X1 := (data.map sqNormL).sum / L
  let grid_trad := Real.sqrt (2 * (X1 - sqNormL AvD1)) / N
  let newData := grid_newData data
  let AvD2 := colMean newData
  let grid_angl := Real.sqrt (1 - sqNormL AvD2) / N
  ⟨X1, AvD1, AvD2, grid_trad, grid_angl⟩

/-- The distance-type discriminator; the repository only ever passes the
strings `'euclidean'` and `'cosine'`. -/
inductive DistanceType where
  | euclidean : DistanceType
  | cosine : DistanceType

/-- `pi_calculator` in `'euclidean'` mode: cumulative proximity by the
closed-form identity `uspi_i = ||x_i - mean||^2 + (X1 - ||mean||^2)`. -/
def pi_euclid (rows : List (List ℝ)) : List ℝ :=
  let AA1 := colMean rows
  let X1 := (rows.map sqNormL).sum / (rows.length : ℝ)
  let DT1 := X1 - sqNormL AA1
  rows.map (fun r => sqNormL (vSub r AA1) + DT1)

/-- `pi_calculator` in `'cosine'` mode: the same identity on rows divided
by their own norms (no NaN guard in this function in the source). -/
def pi_cosine (rows : List (List ℝ)) : List ℝ :=
  let rows1 := rows.map (fun r => r.map (fun x => x / Real.sqrt (sqNormL r)))
  let AA2 := colMean rows1
  let DT2 := 1 - sqNormL AA2
  rows1.map (fun r => sqNormL (vSub r AA2) + DT2)

/-- `pi_calculator(Uniquesample, mode)`. -/
def pi_calculator (dt : DistanceType) (rows : List (List ℝ)) : List ℝ :=
  match dt with
  | DistanceType.euclidean => pi_euclid rows
  | DistanceType.cosine => pi_cosine rows

/-- Stable insertion of index `i` into an index list already sorted by
descending key, walking past entries of key `≥` key `i`. -/
def insertDesc (vals : List ℝ) (i : ℕ) : List ℕ → List ℕ
  | [] => [i]
  | j :: rest =>
      if vals.getD i 0 ≤ vals.getD j 0 then j :: insertDesc vals i rest
      else i :: j :: rest

/-- Model of `GD.argsort()[::-1]`: index permutation sorting keys in
descending order. -/
def argsortDesc (vals : List ℝ) : List ℕ :=
  (List.range vals.length).foldr (insertDesc vals) []

/-- Return record of `Globaldensity_Calculator`. -/
structure DensityOut where
  GD : List ℝ
  Density_1 : List ℝ
  Density_2 : List ℝ
  Uniquesample : List (List ℝ)

/-- `Globaldensity_Calculator(Uniquesample, distancetype)`: per-sample
global density, and the samples re-ordered by descending density. -/
def Globaldensity_Calculator (rows : List (List ℝ)) (dt : DistanceType) :
    DensityOut :=
  let uspi1 := pi_calculator dt rows
  let D1 := uspi1.map (fun x => x / uspi1.sum)
  let uspi2 := pi_calculator DistanceType.cosine rows
  let D2 := uspi2.map (fun x => x / uspi2.sum)
  let GD := List.zipWith (fun x y => x + y) D2 D1
  let idx := argsortDesc GD
  ⟨idx.map (fun i => GD.getD i 0), D1, D2, idx.map (fun i => rows.getD i [])⟩

/-- Euclidean component of `hand_dist`: `aux ** .5`. -/
def eucDist (a b : List ℝ) : ℝ := Real.sqrt (sqNormL (vSub a b))

/-- Angular component of `hand_dist`:
`((1 - dot/(sqrt(denom_a)*sqrt(denom_b))) ** 2) ** .25`. -/
def angDist (a b : List ℝ) : ℝ :=
  Real.sqrt (Real.sqrt
    ((1 - dotL a b / (Real.sqrt (sqNormL a) * Real.sqrt (sqNormL b))) ^ 2))

/-- `hand_dist(XA, XB)`: the pair of distances from one sample to every
row of `XB`. -/
def hand_dist (XA : List ℝ) (XB : List (List ℝ)) : List (ℝ × ℝ) :=
  XB.map (fun r => (eucDist XA r, angDist XA r))

/-- Box-table state of `chessboard_division_njit` (Stage 2); the lists
grow by one entry per spawned box, so their common length is `contador`. -/
structure ChessState where
  BOX : List (List ℝ)
  BOX_miu : List (List ℝ)
  BOX_S : List ℝ
  BOX_X : List ℝ
  BOXMT : List ℝ
  NB : ℕ

/-- State after the first (highest-density) sample seeds box 0. -/
def initChess (x0 : List ℝ) (mt0 : ℝ) : ChessState :=
  ⟨[x0], [x0], [1], [sqNormL x0], [mt0], 1⟩

/-- The linear minimum scan of the source (`b = 0; mini = DIS[0]; ...`),
tail: returns the position of the first strict minimum seen so far. -/
def scanMinGo (mini : ℝ) (b ii : ℕ) : List ℝ → ℕ
  | [] => b
  | d :: rest => if d < mini then scanMinGo d ii (ii + 1) rest
                 else scanMinGo mini b (ii + 1) rest

/-- Position of the minimum of a list, first position on ties (the exact
linear scan used in `chessboard_division_njit` and
`cloud_member_recruitment_njit`). -/
def scanMin : List ℝ → ℕ
  | [] => 0
  | d :: rest => scanMinGo d 0 1 rest

/-- Candidate boxes `SQ` for a sample (Condition 1, section 3.2 of the
SODA paper): boxes at Euclidean distance `< grid_trad` and angular
distance `< grid_angl`. -/
def chessSQ (gt ga : ℝ) (st : ChessState) (x : List ℝ) : List ℕ :=
  let distance := hand_dist x st.BOX_miu
  (List.range distance.length).filter
    (fun j => (distance.getD j (0, 0)).1 < gt ∧ (distance.getD j (0, 0)).2 < ga)

/-- Normalised combined distances `DIS` of the candidates (Eq. 20). -/
def chessDIS (gt ga : ℝ) (st : ChessState) (x : List ℝ) : List ℝ :=
  let distance := hand_dist x st.BOX_miu
  (chessSQ gt ga st x).map
    (fun S => (distance.getD S (0, 0)).1 / gt + (distance.getD S (0, 0)).2 / ga)

/-- One iteration of the main loop of `chessboard_division_njit`: either
spawn a new box (Eq. 22) or absorb the sample into the closest candidate
box (Eq. 20/21). -/
def chessStep (gt ga : ℝ) (st : ChessState) (x : List ℝ) (mt : ℝ) :
    ChessState :=
  let SQ := chessSQ gt ga st x
  if SQ = [] then
    ⟨st.BOX ++ [x], st.BOX_miu ++ [x], st.BOX_S ++ [1],
     st.BOX_X ++ [sqNormL x], st.BOXMT ++ [mt], st.NB + 1⟩
  else
    let DIS := chessDIS gt ga st x
    let b := scanMin DIS
    let k := SQ.getD b 0
    let S' := st.BOX_S.getD k 0 + 1
    ⟨st.BOX,
     st.BOX_miu.set k
       (vAdd ((st.BOX_miu.getD k []).map (fun t => (S' - 1) / S' * t))
             (x.map (fun t => t / S'))),
     st.BOX_S.set k S',
     st.BOX_X.set k ((S' - 1) / S' * st.BOX_X.getD k 0 + sqNormL x / S'),
     st.BOXMT.set k (st.BOXMT.getD k 0 + mt),
     st.NB⟩

/-- `chessboard_division_njit` (Stage 2: DA plane projection): `none` on
an empty matrix (the source indexes `Uniquesample[0, :]` unconditionally),
otherwise the fold of `chessStep` over the remaining samples. -/
def chessboard_division (samples : List (List ℝ)) (mts : List ℝ)
    (gt ga : ℝ) : Option ChessState :=
  match samples, mts with
  | x0 :: rest, mt0 :: mtrest =>
      some ((List.zip rest mtrest).foldl
        (fun st p => chessStep gt ga st p.1 p.2) (initChess x0 mt0))
  | _, _ => none

/-- Neighbourhood `seq` of box `i` (Condition 2, with the widening factor
`n = 2`). -/
def peakSeq (miu : List (List ℝ)) (gt ga : ℝ) (i : ℕ) : List ℕ :=
  let distance := hand_dist (miu.getD i []) miu
  (List.range distance.length).filter
    (fun j => (distance.getD j (0, 0)).1 < 2 * gt ∧
              (distance.getD j (0, 0)).2 < 2 * ga)

/-- Condition 3 for box `i`: `max(Chessblocak_typicality) == BOXMT[i]`;
`none` models the `ValueError` Python's `max` raises on an empty
neighbourhood. -/
def peakDecide (miu : List (List ℝ)) (mts : List ℝ) (gt ga : ℝ) (i : ℕ) :
    Option Bool :=
  match ((peakSeq miu gt ga i).map (fun j => mts.getD j 0)).max? with
  | none => none
  | some m => some (m = mts.getD i 0)

/-- The loop of `ChessBoard_PeakIdentification_njit` over box indices,
collecting the means of the boxes that pass Condition 3. -/
def peakLoop (miu : List (List ℝ)) (mts : List ℝ) (gt ga : ℝ) :
    List ℕ → Option (List (List ℝ))
  | [] => some []
  | i :: rest =>
      match peakDecide miu mts gt ga i with
      | none => none
      | some true =>
          (peakLoop miu mts gt ga rest).map (fun cs => miu.getD i [] :: cs)
      | some false => peakLoop miu mts gt ga rest

/-- `ChessBoard_PeakIdentification_njit` (Stage 3): the centers and their
count `ModeNumber`. -/
def ChessBoard_PeakIdentification (miu : List (List ℝ)) (mts : List ℝ)
    (gt ga : ℝ) : Option (List (List ℝ) × ℕ) :=
  (peakLoop miu mts gt ga (List.range miu.length)).map
    (fun cs => (cs, cs.length))

/-- `cloud_member_recruitment_njit` (Stage 4): nearest-center label (as a
0-based index) for every sample of the original matrix; `none` models the
`IndexError` on `dist3[0]` when the center list is empty. -/
def cloud_member_recruitment (centers : List (List ℝ))
    (rows : List (List ℝ)) : Option (List ℕ) :=
  if centers.isEmpty then none
  else some (rows.map (fun r =>
    scanMin ((hand_dist r centers).map (fun d => d.1 + d.2))))

/-- The output dictionary of `SelfOrganisedDirectionAwareDataPartitioning`
(`C`, `IDX`, and the `Boxparameter` fields). -/
structure SODAOutput where
  C : List (List ℝ)
  IDX : List ℕ
  BOX : List (List ℝ)
  BOX_miu : List (List ℝ)
  BOX_S : List ℝ
  NB : ℕ
  XM : ℝ
  L : ℕ
  AvM : List ℝ
  AvA : List ℝ
  GridSize : ℝ

/-- `SelfOrganisedDirectionAwareDataPartitioning(Input)`: the whole
pipeline; `none` exactly where the Python function raises. -/
def SODA (data : List (List ℝ)) (N : ℝ) (dt : DistanceType) :
    Option SODAOutput :=
  let g := grid_set data N
  let dens := Globaldensity_Calculator data dt
  match chessboard_division dens.Uniquesample dens.GD g.grid_trad g.grid_angl with
  | none => none
  | some st =>
      match ChessBoard_PeakIdentification st.BOX_miu st.BOXMT g.grid_trad g.grid_angl with
      | none => none
      | some (cs, _) =>
          match cloud_member_recruitment cs data with
          | none => none
          | some raw =>
              some ⟨cs, raw.map (fun v => v + 1), st.BOX, st.BOX_miu,
                    st.BOX_S, st.NB, g.X1, data.length, g.AvD1, g.AvD2, N⟩

/-- The length bookkeeping the box table maintains: the parallel arrays
all have `contador` entries. -/
def chessWF (st : ChessState) : Prop :=
  st.BOX_miu.length = st.BOX_S.length ∧ st.BOX_miu.length = st.BOXMT.length

/-! ### Basic algebra of the row operations -/

@[simp]
theorem dotL_nil_left (b : List ℝ) : dotL [] b = 0 := by
  cases b <;> simp [dotL]

@[simp]
theorem dotL_nil_right (a : List ℝ) : dotL a [] = 0 := by
  cases a <;> simp [dotL]

@[simp]
theorem dotL_cons_cons (x y : ℝ) (a b : List ℝ) :
    dotL (x :: a) (y :: b) = x * y + dotL a b := by
  simp [dotL]

theorem sqNormL_nil : sqNormL [] = 0 := by simp [sqNormL]

theorem sqNormL_cons (x : ℝ) (a : List ℝ) :
    sqNormL (x :: a) = x * x + sqNormL a := by
  simp [sqNormL]

theorem sqNormL_nonneg (a : List ℝ) : 0 ≤ sqNormL a := by
  induction a with
  | nil => simp [sqNormL_nil]
  | cons x t ih =>
      rw [sqNormL_cons]
      exact add_nonneg (mul_self_nonneg x) ih

theorem sqNormL_eq_zero_iff (a : List ℝ) :
    sqNormL a = 0 ↔ ∀ x ∈ a, x = 0 := by
  induction a with
  | nil => simp [sqNormL_nil]
  | cons x t ih =>
      rw [sqNormL_cons]
      constructor
      · intro h y hy
        have hx2 : 0 ≤ x * x := mul_self_nonneg x
        have ht : 0 ≤ sqNormL t := sqNormL_nonneg t
        have hx : x * x = 0 := by linarith [(add_eq_zero_iff_of_nonneg hx2 ht).mp h]
        have ht0 : sqNormL t = 0 := by linarith [(add_eq_zero_iff_of_nonneg hx2 ht).mp h]
        rcases List.mem_cons.mp hy with rfl | hyt
        · exact mul_self_eq_zero.mp hx
        · exact (ih.mp ht0) y hyt
      · intro h
        have hx : x = 0 := h x (List.mem_cons_self x t)
        have ht : sqNormL t = 0 := ih.mpr (fun y hy => h y (List.mem_cons_of_mem x hy))
        rw [hx, ht]; ring

theorem sqNormL_vSub_self (a : List ℝ) : sqNormL (vSub a a) = 0 := by
  rw [sqNormL_eq_zero_iff]
  intro x hx
  rw [vSub, List.zipWith_same] at hx
  rcases List.mem_map.mp hx with ⟨y, _, rfl⟩
  ring

@[simp]
theorem eucDist_self (a : List ℝ) : eucDist a a = 0 := by
  rw [eucDist, sqNormL_vSub_self, Real.sqrt_zero]

theorem eucDist_nonneg (a b : List ℝ) : 0 ≤ eucDist a b := Real.sqrt_nonneg _

theorem angDist_nonneg (a b : List ℝ) : 0 ≤ angDist a b := Real.sqrt_nonneg _

/-- A row of zeros has zero dot product with every row. -/
theorem dotL_eq_zero_left (a : List ℝ) :
    (∀ x ∈ a, x = 0) → ∀ b : List ℝ, dotL a b = 0 := by
  induction a with
  | nil => intro _ b; simp
  | cons x t ih =>
      intro h b
      cases b with
      | nil => simp
      | cons y s =>
          rw [dotL_cons_cons, h x (List.mem_cons_self x t),
            ih (fun z hz => h z (List.mem_cons_of_mem x hz)) s]
          ring

/-- Self angular distance of a row with nonzero norm is `0`; the cosine
ratio of a row with itself is exactly `1`. -/
theorem angDist_self_of_ne (a : List ℝ) (h : sqNormL a ≠ 0) : angDist a a = 0 := by
  have hpos : 0 < sqNormL a := lt_of_le_of_ne (sqNormL_nonneg a) (Ne.symm h)
  have hs : Real.sqrt (sqNormL a) * Real.sqrt (sqNormL a) = sqNormL a :=
    Real.mul_self_sqrt (le_of_lt hpos)
  have hd : dotL a a = sqNormL a := rfl
  rw [angDist, hs, hd, div_self h]
  norm_num

/-- Every angular distance out of a zero-norm row is `1` (the model value
of the source's `0.0 / 0.0`; see the modelling notes at the top). -/
theorem angDist_of_zero_left (a b : List ℝ) (h : sqNormL a = 0) :
    angDist a b = 1 := by
  have hdot : dotL a b = 0 := dotL_eq_zero_left a ((sqNormL_eq_zero_iff a).mp h) b
  rw [angDist, hdot, h, Real.sqrt_zero, zero_mul, div_zero]
  norm_num

/-! ### The linear minimum scan -/

/-- Full characterisation of `scanMinGo`: either no element beats the
running minimum (result is the accumulator), or the result points at the
first position achieving the overall strict minimum. -/
theorem scanMinGo_spec (rest : List ℝ) : ∀ (mini : ℝ) (b ii : ℕ),
    (scanMinGo mini b ii rest = b ∧ ∀ p, p < rest.length → mini ≤ rest.getD p 0) ∨
    (∃ p, p < rest.length ∧ scanMinGo mini b ii rest = ii + p ∧
      rest.getD p 0 < mini ∧
      (∀ q, q < rest.length → rest.getD p 0 ≤ rest.getD q 0) ∧
      (∀ q, q < p → rest.getD p 0 < rest.getD q 0)) := by
  induction rest with
  | nil =>
      intro mini b ii
      left
      constructor
      · rfl
      · intro p hp
        simp at hp
  | cons d rest ih =>
      intro mini b ii
      by_cases hd : d < mini
      · have hgo : scanMinGo mini b ii (d :: rest) = scanMinGo d ii (ii + 1) rest := by
          simp [scanMinGo, hd]
        rcases ih d ii (ii + 1) with ⟨heq, hall⟩ | ⟨p, hp, heq, hlt, hall, hbef⟩
        · right
          refine ⟨0, by simp, by rw [hgo, heq]; omega, by simpa using hd, ?_, ?_⟩
          · intro q hq
            cases q with
            | zero => simp
            | succ q =>
                simp only [List.getD_cons_succ, List.getD_cons_zero]
                exact hall q (by simp at hq; omega)
          · intro q hq
            exact absurd hq (Nat.not_lt_zero q)
        · right
          refine ⟨p + 1, by simp; omega, by rw [hgo, heq]; omega, ?_, ?_, ?_⟩
          · simp only [List.getD_cons_succ]
            exact lt_trans hlt hd
          · intro q hq
            cases q with
            | zero =>
                simp only [List.getD_cons_succ, List.getD_cons_zero]
                exact le_of_lt hlt
            | succ q =>
                simp only [List.getD_cons_succ]
                exact hall q (by simp at hq; omega)
          · intro q hq
            cases q with
            | zero =>
                simp only [List.getD_cons_succ, List.getD_cons_zero]
                exact hlt
            | succ q =>
                simp only [List.getD_cons_succ]
                exact hbef q (by omega)
      · have hgo : scanMinGo mini b ii (d :: rest) = scanMinGo mini b (ii + 1) rest := by
          simp [scanMinGo, hd]
        rcases ih mini b (ii + 1) with ⟨heq, hall⟩ | ⟨p, hp, heq, hlt, hall, hbef⟩
        · left
          constructor
          · rw [hgo, heq]
          · intro p hp
            cases p with
            | zero => simpa using not_lt.mp hd
            | succ p =>
                simp only [List.getD_cons_succ]
                exact hall p (by simp at hp; omega)
        · right
          refine ⟨p + 1, by simp; omega, by rw [hgo, heq]; omega, ?_, ?_, ?_⟩
          · simp only [List.getD_cons_succ]
            exact hlt
          · intro q hq
            cases q with
            | zero =>
                simp only [List.getD_cons_succ, List.getD_cons_zero]
                exact le_trans (le_of_lt hlt) (not_lt.mp hd)
            | succ q =>
                simp only [List.getD_cons_succ]
                exact hall q (by simp at hq; omega)
          · intro q hq
            cases q with
            | zero =>
                simp only [List.getD_cons_succ, List.getD_cons_zero]
                exact lt_of_lt_of_le hlt (not_lt.mp hd)
            | succ q =>
                simp only [List.getD_cons_succ]
                exact hbef q (by omega)

/-- `scanMin` of a nonempty list is a valid position, its value is a
minimum of the list, and every strictly earlier position holds a strictly
larger value (first-minimum tie rule). -/
theorem scanMin_spec (l : List ℝ) (hl : l ≠ []) :
    scanMin l < l.length ∧
    (∀ q, q < l.length → l.getD (scanMin l) 0 ≤ l.getD q 0) ∧
    (∀ q, q < scanMin l → l.getD q 0 > l.getD (scanMin l) 0) := by
  cases l with
  | nil => exact absurd rfl hl
  | cons d rest =>
      have hsc : scanMin (d :: rest) = scanMinGo d 0 1 rest := rfl
      rcases scanMinGo_spec rest d 0 1 with ⟨heq, hall⟩ | ⟨p, hp, heq, hlt, hall, hbef⟩
      · rw [hsc, heq]
        refine ⟨by simp, ?_, ?_⟩
        · intro q hq
          cases q with
          | zero => simp
          | succ q =>
              simp only [List.getD_cons_succ, List.getD_cons_zero]
              exact hall q (by simp at hq; omega)
        · intro q hq
          exact absurd hq (Nat.not_lt_zero q)
      · rw [hsc, heq]
        have hidx : (1 + p) = p + 1 := by omega
        rw [hidx]
        refine ⟨by simp; omega, ?_, ?_⟩
        · intro q hq
          cases q with
          | zero =>
              simp only [List.getD_cons_succ, List.getD_cons_zero]
              exact le_of_lt hlt
          | succ q =>
              simp only [List.getD_cons_succ]
              exact hall q (by simp at hq; omega)
        · intro q hq
          cases q with
          | zero =>
              simp only [List.getD_cons_succ, List.getD_cons_zero]
              exact hlt
          | succ q =>
              simp only [List.getD_cons_succ]
              exact hbef q (by omega)

theorem scanMin_lt_length (l : List ℝ) (hl : l ≠ []) : scanMin l < l.length :=
  (scanMin_spec l hl).1

/-! ### Invariants of the box-aggregation fold -/

theorem chessDIS_length (gt ga : ℝ) (st : ChessState) (x : List ℝ) :
    (chessDIS gt ga st x).length = (chessSQ gt ga st x).length := by
  simp [chessDIS]

theorem chessSQ_mem_lt (gt ga : ℝ) (st : ChessState) (x : List ℝ) (k : ℕ)
    (hk : k ∈ chessSQ gt ga st x) : k < st.BOX_miu.length := by
  simp only [chessSQ] at hk
  have h1 := (List.mem_filter.mp hk).1
  have h2 : k < (hand_dist x st.BOX_miu).length := List.mem_range.mp h1
  simpa [hand_dist] using h2

/-- The box index picked in the absorb branch is a valid index of the box
table. -/
theorem chess_k_lt (gt ga : ℝ) (st : ChessState) (x : List ℝ)
    (h : chessSQ gt ga st x ≠ []) :
    (chessSQ gt ga st x).getD (scanMin (chessDIS gt ga st x)) 0 <
      st.BOX_miu.length := by
  have hne : chessDIS gt ga st x ≠ [] := by
    intro hc
    apply h
    have := chessDIS_length gt ga st x
    rw [hc] at this
    exact List.eq_nil_of_length_eq_zero this.symm
  have hb : scanMin (chessDIS gt ga st x) < (chessSQ gt ga st x).length := by
    rw [← chessDIS_length gt ga st x]
    exact scanMin_lt_length _ hne
  have hmem : (chessSQ gt ga st x).getD (scanMin (chessDIS gt ga st x)) 0 ∈
      chessSQ gt ga st x := by
    rw [List.getD_eq_getElem _ _ hb]
    exact List.getElem_mem _
  exact chessSQ_mem_lt gt ga st x _ hmem

theorem sum_set_getD_add_one (l : List ℝ) (k : ℕ) (hk : k < l.length) :
    (l.set k (l.getD k 0 + 1)).sum = l.sum + 1 := by
  induction l generalizing k with
  | nil => simp at hk
  | cons x t ih =>
      cases k with
      | zero => simp [List.getD_cons_zero]; ring
      | succ k =>
          simp only [List.getD_cons_succ, List.set_cons_succ, List.sum_cons]
          rw [ih k (by simpa using hk)]
          ring

theorem chessStep_wf (gt ga : ℝ) (st : ChessState) (x : List ℝ) (mt : ℝ)
    (h : chessWF st) : chessWF (chessStep gt ga st x mt) := by
  by_cases hSQ : chessSQ gt ga st x = []
  · simp only [chessStep, hSQ, if_pos]
    exact ⟨by simp [h.1], by simp [h.2]⟩
  · simp only [chessStep, if_neg hSQ]
    exact ⟨by simp [h.1], by simp [h.2]⟩

theorem chessStep_sum (gt ga : ℝ) (st : ChessState) (x : List ℝ) (mt : ℝ)
    (h : chessWF st) :
    (chessStep gt ga st x mt).BOX_S.sum = st.BOX_S.sum + 1 := by
  by_cases hSQ : chessSQ gt ga st x = []
  · simp [chessStep, hSQ]
  · have hk := chess_k_lt gt ga st x hSQ
    simp only [chessStep, if_neg hSQ]
    exact sum_set_getD_add_one _ _ (h.1 ▸ hk)

theorem chessStep_card (gt ga : ℝ) (st : ChessState) (x : List ℝ) (mt : ℝ) :
    (chessStep gt ga st x mt).BOX_S.length ≤ st.BOX_S.length + 1 := by
  by_cases hSQ : chessSQ gt ga st x = []
  · simp [chessStep, hSQ]
  · simp [chessStep, if_neg hSQ]

theorem chessWF_init (x0 : List ℝ) (mt0 : ℝ) : chessWF (initChess x0 mt0) :=
  ⟨rfl, rfl⟩

/-- Combined invariant of the aggregation fold: well-formedness, the
member-count sum growing by one per absorbed sample, and the box count
growing by at most one per sample. -/
theorem chessFold_inv (gt ga : ℝ) (pairs : List (List ℝ × ℝ)) :
    ∀ st : ChessState, chessWF st →
    chessWF (pairs.foldl (fun s p => chessStep gt ga s p.1 p.2) st) ∧
    (pairs.foldl (fun s p => chessStep gt ga s p.1 p.2) st).BOX_S.sum =
      st.BOX_S.sum + pairs.length ∧
    (pairs.foldl (fun s p => chessStep gt ga s p.1 p.2) st).BOX_S.length ≤
      st.BOX_S.length + pairs.length := by
  induction pairs with
  | nil => intro st h; exact ⟨h, by simp, by simp⟩
  | cons p ps ih =>
      intro st h
      simp only [List.foldl_cons, List.length_cons]
      obtain ⟨w, s, l⟩ := ih (chessStep gt ga st p.1 p.2)
        (chessStep_wf gt ga st p.1 p.2 h)
      refine ⟨w, ?_, ?_⟩
      · rw [s, chessStep_sum gt ga st p.1 p.2 h]
        push_cast
        ring
      · have := chessStep_card gt ga st p.1 p.2
        omega

/-- C2: for every input matrix with `L ≥ 1` rows (with its global-density
vector of matching length) on which the BoxAggregator pass completes, the
member counts `BOX_S` of the returned boxes sum to exactly `L`. -/
theorem chessboard_memberCount_sum (samples : List (List ℝ)) (mts : List ℝ)
    (gt ga : ℝ) (st : ChessState) (hL : 1 ≤ samples.length)
    (hmt : mts.length = samples.length)
    (h : chessboard_division samples mts gt ga = some st) :
    st.BOX_S.sum = (samples.length : ℝ) := by
  match samples, mts, hmt with
  | x0 :: rest, mt0 :: mtrest, hmt =>
      have hzip : (List.zip rest mtrest).length = rest.length := by
        rw [List.length_zip]
        simp at hmt
        omega
      have hinit : chessWF (initChess x0 mt0) := chessWF_init x0 mt0
      obtain ⟨_, hsum, _⟩ :=
        chessFold_inv gt ga (List.zip rest mtrest) (initChess x0 mt0) hinit
      have hst : st = (List.zip rest mtrest).foldl
          (fun s p => chessStep gt ga s p.1 p.2) (initChess x0 mt0) := by
        have := h
        simp only [chessboard_division] at this
        exact (Option.some_injective _ this).symm
      rw [hst, hsum, hzip]
      simp [initChess]
      ring

/-! ### Lengths through the pipeline -/

theorem insertDesc_length (vals : List ℝ) (i : ℕ) (l : List ℕ) :
    (insertDesc vals i l).length = l.length + 1 := by
  induction l with
  | nil => rfl
  | cons j rest ih =>
      simp only [insertDesc]
      by_cases h : vals.getD i 0 ≤ vals.getD j 0
      · rw [if_pos h]
        simp [ih]
      · rw [if_neg h]
        simp

theorem argsortDesc_length (vals : List ℝ) :
    (argsortDesc vals).length = vals.length := by
  rw [argsortDesc]
  have key : ∀ idxs : List ℕ, (idxs.foldr (insertDesc vals) []).length = idxs.length := by
    intro idxs
    induction idxs with
    | nil => rfl
    | cons i rest ih => simp [List.foldr_cons, insertDesc_length, ih]
  rw [key, List.length_range]

theorem pi_calculator_length (dt : DistanceType) (rows : List (List ℝ)) :
    (pi_calculator dt rows).length = rows.length := by
  cases dt <;> simp [pi_calculator, pi_euclid, pi_cosine]

theorem density_GD_length (rows : List (List ℝ)) (dt : DistanceType) :
    (Globaldensity_Calculator rows dt).GD.length = rows.length := by
  simp [Globaldensity_Calculator, argsortDesc_length, pi_calculator_length]

theorem density_Uniquesample_length (rows : List (List ℝ)) (dt : DistanceType) :
    (Globaldensity_Calculator rows dt).Uniquesample.length = rows.length := by
  simp [Globaldensity_Calculator, argsortDesc_length, pi_calculator_length]

/-- On success the box table has at most one box per input sample, and is
well-formed. -/
theorem chessboard_card_le (samples : List (List ℝ)) (mts : List ℝ)
    (gt ga : ℝ) (st : ChessState)
    (h : chessboard_division samples mts gt ga = some st) :
    st.BOX_S.length ≤ samples.length ∧ chessWF st := by
  match samples, mts with
  | [], _ => exact absurd h (by simp [chessboard_division])
  | x0 :: rest, [] => exact absurd h (by simp [chessboard_division])
  | x0 :: rest, mt0 :: mtrest =>
      have hst : st = (List.zip rest mtrest).foldl
          (fun s p => chessStep gt ga s p.1 p.2) (initChess x0 mt0) := by
        simp only [chessboard_division] at h
        exact (Option.some_injective _ h).symm
      obtain ⟨hwf, _, hlen⟩ :=
        chessFold_inv gt ga (List.zip rest mtrest) (initChess x0 mt0)
          (chessWF_init x0 mt0)
      constructor
      · rw [hst]
        have hzl : (List.zip rest mtrest).length ≤ rest.length := by
          rw [List.length_zip]; omega
        have h1 : (initChess x0 mt0).BOX_S.length = 1 := rfl
        rw [h1] at hlen
        simp only [List.length_cons]
        omega
      · rw [hst]; exact hwf

theorem peakLoop_length (miu : List (List ℝ)) (mts : List ℝ) (gt ga : ℝ) :
    ∀ (idxs : List ℕ) (cs : List (List ℝ)),
    peakLoop miu mts gt ga idxs = some cs → cs.length ≤ idxs.length := by
  intro idxs
  induction idxs with
  | nil =>
      intro cs h
      simp only [peakLoop] at h
      rw [← Option.some_injective _ h]
      simp
  | cons i rest ih =>
      intro cs h
      cases hd : peakDecide miu mts gt ga i with
      | none => simp [peakLoop, hd] at h
      | some b =>
          cases b with
          | true =>
              simp only [peakLoop, hd] at h
              cases hrec : peakLoop miu mts gt ga rest with
              | none => simp [hrec] at h
              | some cs0 =>
                  rw [hrec] at h
                  simp at h
                  rw [← h]
                  have := ih cs0 hrec
                  simp only [List.length_cons]
                  omega
          | false =>
              simp only [peakLoop, hd] at h
              have := ih cs h
              simp only [List.length_cons]
              omega

theorem peak_card_le (miu : List (List ℝ)) (mts : List ℝ) (gt ga : ℝ)
    (cs : List (List ℝ)) (k : ℕ)
    (h : ChessBoard_PeakIdentification miu mts gt ga = some (cs, k)) :
    cs.length ≤ miu.length ∧ k = cs.length := by
  cases hloop : peakLoop miu mts gt ga (List.range miu.length) with
  | none => simp [ChessBoard_PeakIdentification, hloop] at h
  | some cs0 =>
      rw [ChessBoard_PeakIdentification, hloop] at h
      simp at h
      obtain ⟨rfl, hk⟩ := h
      have hle := peakLoop_length miu mts gt ga (List.range miu.length) cs0 hloop
      rw [List.length_range] at hle
      exact ⟨hle, hk.symm⟩

/-- On success the recruitment stage labels every original sample with a
valid 0-based center index. -/
theorem cloud_labels (centers rows : List (List ℝ)) (raw : List ℕ)
    (h : cloud_member_recruitment centers rows = some raw) :
    raw.length = rows.length ∧ ∀ v ∈ raw, v < centers.length := by
  by_cases hc : centers.isEmpty = true
  · simp [cloud_member_recruitment, hc] at h
  · rw [cloud_member_recruitment, if_neg hc, Option.some_inj] at h
    subst h
    refine ⟨by simp, ?_⟩
    intro v hv
    rcases List.mem_map.mp hv with ⟨r, _, rfl⟩
    have hne : (hand_dist r centers).map (fun d => d.1 + d.2) ≠ [] := by
      simp only [ne_eq, List.map_eq_nil_iff, hand_dist]
      intro hcnil
      rw [hcnil] at hc
      simp at hc
    have := scanMin_lt_length _ hne
    simpa [hand_dist] using this

/-! ### Claim C1 -/

/-- C1: for every input matrix (`L ≥ 1`, `W ≥ 1`) and granularity `N > 0`
on which `SelfOrganisedDirectionAwareDataPartitioning` completes, the
returned label vector `IDX` has length `L`, every label is an integer in
`[1, K]` where `K` is the number of detected centers, and `K ≤ B ≤ L`
where `B` is the number of boxes in the returned box table. -/
theorem SODA_label_ranges (data : List (List ℝ)) (N : ℝ) (dt : DistanceType)
    (out : SODAOutput) (hL : 1 ≤ data.length) (hW : 1 ≤ matW data)
    (hN : 0 < N) (h : SODA data N dt = some out) :
    out.IDX.length = data.length ∧
    (∀ l ∈ out.IDX, 1 ≤ l ∧ l ≤ out.C.length) ∧
    out.C.length ≤ out.BOX_S.length ∧
    out.BOX_S.length ≤ data.length := by
  simp only [SODA] at h
  split at h
  · exact absurd h (by simp)
  · rename_i st hcd
    split at h
    · exact absurd h (by simp)
    · rename_i p cs k hpk
      split at h
      · exact absurd h (by simp)
      · rename_i raw hcm
        rw [Option.some_inj] at h
        subst h
        obtain ⟨hrawlen, hrawlt⟩ := cloud_labels cs data raw hcm
        obtain ⟨hcard, hwf⟩ := chessboard_card_le _ _ _ _ _ hcd
        obtain ⟨hK, _⟩ := peak_card_le _ _ _ _ _ _ hpk
        refine ⟨by simpa using hrawlen, ?_, ?_, ?_⟩
        · intro l hl
          rcases List.mem_map.mp hl with ⟨v, hv, rfl⟩
          have hvlt := hrawlt v hv
          constructor
          · omega
          · show v + 1 ≤ cs.length
            omega
        · exact le_trans hK (le_of_eq hwf.1)
        · calc st.BOX_S.length
              ≤ (Globaldensity_Calculator data dt).Uniquesample.length := hcard
            _ = data.length := density_Uniquesample_length data dt

/-! ### Claim C5 -/

theorem hand_dist_getD (a : List ℝ) (rows : List (List ℝ)) (j : ℕ)
    (hj : j < rows.length) :
    (hand_dist a rows).getD j (0, 0) =
      (eucDist a (rows.getD j []), angDist a (rows.getD j [])) := by
  have hj2 : j < (hand_dist a rows).length := by simpa [hand_dist] using hj
  rw [List.getD_eq_getElem _ _ hj2, List.getD_eq_getElem _ _ hj]
  simp [hand_dist]

/-- If the neighbourhood of box `i` is nonempty then box `i` belongs to
its own neighbourhood (its self-distances never exceed any of its
distances to a neighbour). -/
theorem peakSeq_self_mem (miu : List (List ℝ)) (gt ga : ℝ) (i : ℕ)
    (hi : i < miu.length) (hne : peakSeq miu gt ga i ≠ []) :
    i ∈ peakSeq miu gt ga i := by
  obtain ⟨j, hj⟩ := List.exists_mem_of_ne_nil _ hne
  simp only [peakSeq, List.mem_filter, List.mem_range, decide_eq_true_eq] at hj ⊢
  obtain ⟨hjr, hjc⟩ := hj
  have hjlen : j < miu.length := by simpa [hand_dist] using hjr
  rw [hand_dist_getD _ _ _ hjlen] at hjc
  have hgt : (0:ℝ) < 2 * gt :=
    lt_of_le_of_lt (eucDist_nonneg (miu.getD i []) (miu.getD j [])) hjc.1
  refine ⟨by simpa [hand_dist] using hi, ?_⟩
  rw [hand_dist_getD _ _ _ hi]
  by_cases hz : sqNormL (miu.getD i []) = 0
  · have h1 : angDist (miu.getD i []) (miu.getD j []) = 1 :=
      angDist_of_zero_left _ _ hz
    have h2 : angDist (miu.getD i []) (miu.getD i []) = 1 :=
      angDist_of_zero_left _ _ hz
    exact ⟨by simpa using hgt, by rw [h2]; rw [h1] at hjc; exact hjc.2⟩
  · have h2 : angDist (miu.getD i []) (miu.getD i []) = 0 :=
      angDist_self_of_ne _ hz
    have hga : (0:ℝ) < 2 * ga :=
      lt_of_le_of_lt (angDist_nonneg (miu.getD i []) (miu.getD j [])) hjc.2
    exact ⟨by simpa using hgt, by rw [h2]; exact hga⟩

theorem max?_spec (l : List ℝ) (m : ℝ) (h : l.max? = some m) :
    m ∈ l ∧ ∀ b ∈ l, b ≤ m := by
  have : Std.Antisymm (α := ℝ) (· ≤ ·) := ⟨@le_antisymm ℝ _⟩
  rw [List.max?_eq_some_iff] at h
  · exact h
  all_goals simp [le_total]

/-- Box `i` has no neighbour of strictly greater accumulated density
mass. -/
def noStrongerNeighbor (miu : List (List ℝ)) (mts : List ℝ) (gt ga : ℝ)
    (i : ℕ) : Prop :=
  ¬ ∃ j ∈ peakSeq miu gt ga i, mts.getD i 0 < mts.getD j 0

/-- When Condition 3 is evaluated without raising, it holds exactly when
no neighbouring box has strictly greater mass. -/
theorem peakDecide_true_iff (miu : List (List ℝ)) (mts : List ℝ)
    (gt ga : ℝ) (i : ℕ) (hi : i < miu.length) (b : Bool)
    (h : peakDecide miu mts gt ga i = some b) :
    (b = true ↔ noStrongerNeighbor miu mts gt ga i) := by
  rw [peakDecide] at h
  cases hmax : ((peakSeq miu gt ga i).map fun j => mts.getD j 0).max? with
  | none => rw [hmax] at h; cases h
  | some m =>
      rw [hmax] at h
      have hb : b = decide (m = mts.getD i 0) := (Option.some_inj.mp h).symm
      have hne : peakSeq miu gt ga i ≠ [] := by
        intro hnil
        rw [hnil] at hmax
        simp at hmax
      have hself := peakSeq_self_mem miu gt ga i hi hne
      obtain ⟨hmem, hmax2⟩ := max?_spec _ _ hmax
      rcases List.mem_map.mp hmem with ⟨j₀, hj₀, hmj₀⟩
      have hile : mts.getD i 0 ≤ m :=
        hmax2 _ (List.mem_map.mpr ⟨i, hself, rfl⟩)
      subst hb
      rw [decide_eq_true_eq]
      constructor
      · intro hmi
        rintro ⟨j, hj, hstr⟩
        have : mts.getD j 0 ≤ m := hmax2 _ (List.mem_map.mpr ⟨j, hj, rfl⟩)
        rw [hmi] at this
        exact absurd hstr (not_lt.mpr this)
      · intro hns
        have hmle : m ≤ mts.getD i 0 := by
          by_contra hcon
          exact hns ⟨j₀, hj₀, by rw [hmj₀]; exact lt_of_not_le hcon⟩
        exact le_antisymm hmle hile

theorem peakLoop_decided (miu : List (List ℝ)) (mts : List ℝ) (gt ga : ℝ) :
    ∀ (idxs : List ℕ) (cs : List (List ℝ)),
    peakLoop miu mts gt ga idxs = some cs →
    ∀ i ∈ idxs, ∃ b, peakDecide miu mts gt ga i = some b := by
  intro idxs
  induction idxs with
  | nil => intro cs _ i hi; simp at hi
  | cons i₀ rest ih =>
      intro cs h i hi
      cases hd : peakDecide miu mts gt ga i₀ with
      | none => simp [peakLoop, hd] at h
      | some b =>
          rcases List.mem_cons.mp hi with rfl | hrest
          · exact ⟨b, hd⟩
          · cases b with
            | true =>
                simp only [peakLoop, hd] at h
                cases hrec : peakLoop miu mts gt ga rest with
                | none => rw [hrec] at h; simp at h
                | some cs0 => exact ih cs0 hrec i hrest
            | false =>
                simp only [peakLoop, hd] at h
                exact ih cs h i hrest

theorem peakLoop_filter (miu : List (List ℝ)) (mts : List ℝ) (gt ga : ℝ) :
    ∀ (idxs : List ℕ) (cs : List (List ℝ)),
    peakLoop miu mts gt ga idxs = some cs →
    cs = (idxs.filter
        (fun i => decide (peakDecide miu mts gt ga i = some true))).map
      (fun i => miu.getD i []) := by
  intro idxs
  induction idxs with
  | nil =>
      intro cs h
      simp only [peakLoop, Option.some_inj] at h
      rw [← h]
      simp
  | cons i₀ rest ih =>
      intro cs h
      cases hd : peakDecide miu mts gt ga i₀ with
      | none => simp [peakLoop, hd] at h
      | some b =>
          cases b with
          | true =>
              simp only [peakLoop, hd] at h
              cases hrec : peakLoop miu mts gt ga rest with
              | none => rw [hrec] at h; simp at h
              | some cs0 =>
                  rw [hrec] at h
                  simp at h
                  rw [← h, List.filter_cons, ih cs0 hrec]
                  simp [hd]
          | false =>
              simp only [peakLoop, hd] at h
              rw [List.filter_cons, ih cs h]
              simp [hd]

/-- C5: in the PeakDetector, a box becomes a center exactly when no box
in its neighbourhood (Euclidean distance `< 2*grid_trad` and angular
distance `< 2*grid_angl`) has strictly greater `densityMass`; in
particular neighbouring boxes sharing the identical maximal mass are all
kept as co-equal peaks.  The center list is literally the in-order
selection of the box means passing that test. -/
theorem peak_centers_characterization (miu : List (List ℝ)) (mts : List ℝ)
    (gt ga : ℝ) (cs : List (List ℝ)) (k : ℕ)
    (h : ChessBoard_PeakIdentification miu mts gt ga = some (cs, k)) :
    cs = ((List.range miu.length).filter
        (fun i => noStrongerNeighbor miu mts gt ga i)).map
      (fun i => miu.getD i []) := by
  cases hloop : peakLoop miu mts gt ga (List.range miu.length) with
  | none => simp [ChessBoard_PeakIdentification, hloop] at h
  | some cs0 =>
      rw [ChessBoard_PeakIdentification, hloop] at h
      simp at h
      obtain ⟨rfl, -⟩ := h
      rw [peakLoop_filter miu mts gt ga _ _ hloop]
      congr 1
      apply List.filter_congr
      intro i hi
      have hilt : i < miu.length := List.mem_range.mp hi
      obtain ⟨b, hb⟩ :=
        peakLoop_decided miu mts gt ga _ _ hloop i hi
      have hiff := peakDecide_true_iff miu mts gt ga i hilt b hb
      rw [decide_eq_decide]
      rw [hb]
      simp only [Option.some_inj]
      exact hiff

/-! ### Claim C6 -/

theorem getD_set_ne {α : Type} (l : List α) (k j : ℕ) (a d : α) (h : j ≠ k) :
    (l.set k a).getD j d = l.getD j d := by
  by_cases hj : j < l.length
  · rw [List.getD_eq_getElem _ _ (by simpa using hj), List.getD_eq_getElem _ _ hj]
    exact List.getElem_set_ne (Ne.symm h) _
  · rw [List.getD_eq_default _ _ (by simpa using (not_lt.mp hj)),
        List.getD_eq_default _ _ (not_lt.mp hj)]

/-- Candidate indices are listed in strictly increasing box order, so the
first position attaining the minimal combined distance is also the lowest
candidate box index. -/
theorem chessSQ_sorted (gt ga : ℝ) (st : ChessState) (x : List ℝ) :
    (chessSQ gt ga st x).Pairwise (· < ·) := by
  simp only [chessSQ]
  exact List.Pairwise.sublist (List.filter_sublist _) (List.pairwise_lt_range _)

/-- The box index the absorb branch picks (`SQ[b]`). -/
def chessChosen (gt ga : ℝ) (st : ChessState) (x : List ℝ) : ℕ :=
  (chessSQ gt ga st x).getD (scanMin (chessDIS gt ga st x)) 0

/-- The post-increment member count `n` of the chosen box. -/
def chessNewCount (gt ga : ℝ) (st : ChessState) (x : List ℝ) : ℝ :=
  st.BOX_S.getD (chessChosen gt ga st x) 0 + 1

/-- C6: whenever a sample has at least one candidate box (Euclidean
distance `< grid_trad` and angular distance `< grid_angl`), the sample is
absorbed into the candidate minimising
`d_euclid/grid_trad + d_angular/grid_angl`, ties falling to the first
(lowest-index, since `SQ` is increasing) candidate; the chosen box `k` is
updated by `mean ← mean*(n-1)/n + sample/n`,
`sumSqNorm ← sumSqNorm*(n-1)/n + ‖sample‖²/n`, `count ← n` with `n` the
post-increment count, `densityMass ← densityMass + GD`; and no other box
(and no seed, and not `NB`) is modified. -/
theorem chessStep_absorb_spec (gt ga : ℝ) (st : ChessState) (x : List ℝ)
    (mt : ℝ) (hSQ : chessSQ gt ga st x ≠ []) :
    (chessSQ gt ga st x).Pairwise (· < ·) ∧
    scanMin (chessDIS gt ga st x) < (chessDIS gt ga st x).length ∧
    (∀ m, m < (chessDIS gt ga st x).length →
      (chessDIS gt ga st x).getD (scanMin (chessDIS gt ga st x)) 0 ≤
        (chessDIS gt ga st x).getD m 0) ∧
    (∀ m, m < scanMin (chessDIS gt ga st x) →
      (chessDIS gt ga st x).getD (scanMin (chessDIS gt ga st x)) 0 <
        (chessDIS gt ga st x).getD m 0) ∧
    chessChosen gt ga st x ∈ chessSQ gt ga st x ∧
    chessStep gt ga st x mt =
      { st with
        BOX_miu := st.BOX_miu.set (chessChosen gt ga st x)
          (vAdd ((st.BOX_miu.getD (chessChosen gt ga st x) []).map
              (fun t => (chessNewCount gt ga st x - 1) / chessNewCount gt ga st x * t))
            (x.map (fun t => t / chessNewCount gt ga st x))),
        BOX_S := st.BOX_S.set (chessChosen gt ga st x) (chessNewCount gt ga st x),
        BOX_X := st.BOX_X.set (chessChosen gt ga st x)
          ((chessNewCount gt ga st x - 1) / chessNewCount gt ga st x *
              st.BOX_X.getD (chessChosen gt ga st x) 0 +
            sqNormL x / chessNewCount gt ga st x),
        BOXMT := st.BOXMT.set (chessChosen gt ga st x)
          (st.BOXMT.getD (chessChosen gt ga st x) 0 + mt) } ∧
    (∀ j, j ≠ chessChosen gt ga st x →
      (chessStep gt ga st x mt).BOX_S.getD j 0 = st.BOX_S.getD j 0 ∧
      (chessStep gt ga st x mt).BOX_miu.getD j [] = st.BOX_miu.getD j [] ∧
      (chessStep gt ga st x mt).BOX_X.getD j 0 = st.BOX_X.getD j 0 ∧
      (chessStep gt ga st x mt).BOXMT.getD j 0 = st.BOXMT.getD j 0) ∧
    (chessStep gt ga st x mt).BOX = st.BOX ∧
    (chessStep gt ga st x mt).NB = st.NB := by
  have hDISne : chessDIS gt ga st x ≠ [] := by
    intro hc
    apply hSQ
    have hlen := chessDIS_length gt ga st x
    rw [hc] at hlen
    exact List.eq_nil_of_length_eq_zero hlen.symm
  obtain ⟨hblt, hmin, hfirst⟩ := scanMin_spec _ hDISne
  have hb : scanMin (chessDIS gt ga st x) < (chessSQ gt ga st x).length := by
    rw [← chessDIS_length gt ga st x]; exact hblt
  have hmem : chessChosen gt ga st x ∈ chessSQ gt ga st x := by
    rw [chessChosen, List.getD_eq_getElem _ _ hb]
    exact List.getElem_mem _
  have hstep : chessStep gt ga st x mt =
      { st with
        BOX_miu := st.BOX_miu.set (chessChosen gt ga st x)
          (vAdd ((st.BOX_miu.getD (chessChosen gt ga st x) []).map
              (fun t => (chessNewCount gt ga st x - 1) / chessNewCount gt ga st x * t))
            (x.map (fun t => t / chessNewCount gt ga st x))),
        BOX_S := st.BOX_S.set (chessChosen gt ga st x) (chessNewCount gt ga st x),
        BOX_X := st.BOX_X.set (chessChosen gt ga st x)
          ((chessNewCount gt ga st x - 1) / chessNewCount gt ga st x *
              st.BOX_X.getD (chessChosen gt ga st x) 0 +
            sqNormL x / chessNewCount gt ga st x),
        BOXMT := st.BOXMT.set (chessChosen gt ga st x)
          (st.BOXMT.getD (chessChosen gt ga st x) 0 + mt) } := by
    simp only [chessStep, if_neg hSQ, chessChosen, chessNewCount]
  refine ⟨chessSQ_sorted gt ga st x, hblt, hmin, hfirst, hmem, hstep, ?_, ?_, ?_⟩
  · intro j hj
    rw [hstep]
    exact ⟨getD_set_ne _ _ _ _ _ hj, getD_set_ne _ _ _ _ _ hj,
      getD_set_ne _ _ _ _ _ hj, getD_set_ne _ _ _ _ _ hj⟩
  · rw [hstep]
  · rw [hstep]

/-! ### Algebra for the threshold-positivity claim (C7) -/

@[simp]
theorem vAdd_cons (x y : ℝ) (t s : List ℝ) :
    vAdd (x :: t) (y :: s) = (x + y) :: vAdd t s := rfl

@[simp]
theorem vSub_cons (x y : ℝ) (t s : List ℝ) :
    vSub (x :: t) (y :: s) = (x - y) :: vSub t s := rfl

theorem dotL_comm (a : List ℝ) : ∀ b : List ℝ, dotL a b = dotL b a := by
  induction a with
  | nil => intro b; simp
  | cons x t ih =>
      intro b
      cases b with
      | nil => simp
      | cons y s => rw [dotL_cons_cons, dotL_cons_cons, ih s]; ring

theorem dotL_vAdd_left (a : List ℝ) :
    ∀ (b c : List ℝ), a.length = b.length →
    dotL (vAdd a b) c = dotL a c + dotL b c := by
  induction a with
  | nil =>
      intro b c hab
      cases b with
      | nil => simp [vAdd]
      | cons y s => simp at hab
  | cons x t ih =>
      intro b c hab
      cases b with
      | nil => simp at hab
      | cons y s =>
          cases c with
          | nil => simp
          | cons z u =>
              rw [vAdd_cons, dotL_cons_cons, dotL_cons_cons, dotL_cons_cons,
                ih s u (by simpa using hab)]
              ring

theorem dotL_map_mul_right (c : ℝ) (a : List ℝ) :
    ∀ b : List ℝ, dotL a (b.map (fun x => c * x)) = c * dotL a b := by
  induction a with
  | nil => intro b; simp
  | cons x t ih =>
      intro b
      cases b with
      | nil => simp
      | cons y s =>
          rw [List.map_cons, dotL_cons_cons, dotL_cons_cons, ih s]
          ring

theorem sqNormL_vSub_expand (r : List ℝ) :
    ∀ m : List ℝ, r.length = m.length →
    sqNormL (vSub r m) = sqNormL r - 2 * dotL r m + sqNormL m := by
  induction r with
  | nil =>
      intro m h
      cases m with
      | nil => simp [sqNormL_nil, vSub]
      | cons y s => simp at h
  | cons x t ih =>
      intro m h
      cases m with
      | nil => simp at h
      | cons y s =>
          rw [vSub_cons, sqNormL_cons, sqNormL_cons, sqNormL_cons,
            dotL_cons_cons, ih s (by simpa using h)]
          ring

theorem dotL_replicate_zero (W : ℕ) (c : List ℝ) :
    dotL (List.replicate W 0) c = 0 :=
  dotL_eq_zero_left _ (fun x hx => (List.eq_of_mem_replicate hx)) c

theorem vAdd_length (a b : List ℝ) : (vAdd a b).length = min a.length b.length := by
  simp [vAdd]

theorem foldl_vAdd_length (rows : List (List ℝ)) (W : ℕ)
    (h : ∀ r ∈ rows, r.length = W) :
    ∀ acc : List ℝ, acc.length = W → (rows.foldl vAdd acc).length = W := by
  induction rows with
  | nil => intro acc hacc; simpa using hacc
  | cons r rows ih =>
      intro acc hacc
      rw [List.foldl_cons]
      refine ih (fun q hq => h q (List.mem_cons_of_mem r hq)) (vAdd acc r) ?_
      rw [vAdd_length, hacc, h r (List.mem_cons_self r rows)]
      omega

theorem vSum_length (W : ℕ) (rows : List (List ℝ))
    (h : ∀ r ∈ rows, r.length = W) : (vSum W rows).length = W :=
  foldl_vAdd_length rows W h _ (List.length_replicate W 0)

theorem dotL_foldl_vAdd (rows : List (List ℝ)) (W : ℕ)
    (h : ∀ r ∈ rows, r.length = W) (c : List ℝ) :
    ∀ acc : List ℝ, acc.length = W →
    dotL (rows.foldl vAdd acc) c =
      dotL acc c + (rows.map (fun r => dotL r c)).sum := by
  induction rows with
  | nil => intro acc _; simp
  | cons r rows ih =>
      intro acc hacc
      rw [List.foldl_cons, List.map_cons, List.sum_cons,
        ih (fun q hq => h q (List.mem_cons_of_mem r hq)) (vAdd acc r)
          (by rw [vAdd_length, hacc, h r (List.mem_cons_self r rows)]; omega),
        dotL_vAdd_left acc r c (by rw [hacc, h r (List.mem_cons_self r rows)])]
      ring

theorem dotL_vSum (W : ℕ) (rows : List (List ℝ))
    (h : ∀ r ∈ rows, r.length = W) (c : List ℝ) :
    dotL (vSum W rows) c = (rows.map (fun r => dotL r c)).sum := by
  rw [vSum, dotL_foldl_vAdd rows W h c _ (List.length_replicate W 0),
    dotL_replicate_zero]
  ring

theorem sum_map_linear (rows : List (List ℝ)) (f g : List ℝ → ℝ) (K : ℝ) :
    (rows.map (fun r => f r - 2 * g r + K)).sum =
      (rows.map f).sum - 2 * (rows.map g).sum + (rows.length : ℝ) * K := by
  induction rows with
  | nil => simp
  | cons r rows ih =>
      simp only [List.map_cons, List.sum_cons, List.length_cons, ih]
      push_cast
      ring

theorem matW_eq (W : ℕ) (rows : List (List ℝ)) (hL : rows ≠ [])
    (h : ∀ r ∈ rows, r.length = W) : matW rows = W := by
  cases rows with
  | nil => exact absurd rfl hL
  | cons r rest =>
      simp only [matW, List.headD_cons]
      exact h r (List.mem_cons_self r rest)

theorem vSub_self_all_zero (t : List ℝ) : ∀ z ∈ vSub t t, z = 0 := by
  intro z hz
  rw [vSub, List.zipWith_same] at hz
  rcases List.mem_map.mp hz with ⟨w, _, rfl⟩
  ring

theorem vSub_all_zero_iff (a : List ℝ) :
    ∀ b : List ℝ, a.length = b.length →
    ((∀ x ∈ vSub a b, x = 0) ↔ a = b) := by
  induction a with
  | nil =>
      intro b h
      cases b with
      | nil => simp [vSub]
      | cons y s => simp at h
  | cons x t ih =>
      intro b h
      cases b with
      | nil => simp at h
      | cons y s =>
          rw [vSub_cons]
          constructor
          · intro hz
            have hx : x - y = 0 := hz _ (List.mem_cons_self _ _)
            have ht : t = s :=
              (ih s (by simpa using h)).mp
                (fun z hzz => hz z (List.mem_cons_of_mem _ hzz))
            rw [sub_eq_zero] at hx
            rw [hx, ht]
          · intro he
            have hx : x = y := (List.cons.injEq x t y s ▸ he).1
            have ht : t = s := (List.cons.injEq x t y s ▸ he).2
            intro z hz
            rcases List.mem_cons.mp hz with rfl | hzz
            · rw [hx]; ring
            · subst ht
              exact vSub_self_all_zero t z hzz

theorem sum_pos_of_mem (l : List ℝ) (hnn : ∀ x ∈ l, 0 ≤ x) (x : ℝ)
    (hx : x ∈ l) (hxp : 0 < x) : 0 < l.sum := by
  induction l with
  | nil => simp at hx
  | cons y t ih =>
      rw [List.sum_cons]
      rcases List.mem_cons.mp hx with rfl | hxt
      · have : 0 ≤ t.sum :=
          List.sum_nonneg (fun z hz => hnn z (List.mem_cons_of_mem _ hz))
        linarith
      · have hy : 0 ≤ y := hnn y (List.mem_cons_self _ _)
        have := ih (fun z hz => hnn z (List.mem_cons_of_mem _ hz)) hxt
        linarith

/-- The closed-form gap `meanSqNorm − ‖mean‖²` equals the mean squared
deviation from the mean (the identity `grid_set` exploits to avoid the
pairwise distance matrix). -/
theorem gap_eq (W : ℕ) (rows : List (List ℝ)) (hL : rows ≠ [])
    (hrows : ∀ r ∈ rows, r.length = W) :
    (rows.map sqNormL).sum / (rows.length : ℝ) - sqNormL (colMean rows) =
      (rows.map (fun r => sqNormL (vSub r (colMean rows)))).sum /
        (rows.length : ℝ) := by
  have hLpos : 0 < (rows.length : ℝ) := by
    have : rows.length ≠ 0 := fun hc => hL (List.eq_nil_of_length_eq_zero hc)
    positivity
  have hW : matW rows = W := matW_eq W rows hL hrows
  set L : ℝ := (rows.length : ℝ) with hLdef
  set S : List ℝ := vSum W rows with hS
  have hmean : colMean rows = S.map (fun x => (1 / L) * x) := by
    rw [colMean, hW, hS]
  have hmlen : (colMean rows).length = W := by
    rw [hmean, List.length_map, hS, vSum_length W rows hrows]
  have hdSm : dotL S (colMean rows) = (1 / L) * dotL S S := by
    rw [hmean, dotL_map_mul_right]
  have hmm : sqNormL (colMean rows) = (1 / L) * ((1 / L) * dotL S S) := by
    have h1 : sqNormL (colMean rows) = dotL (colMean rows) (colMean rows) := rfl
    rw [h1]
    calc dotL (colMean rows) (colMean rows)
        = (1 / L) * dotL (colMean rows) S := by
          rw [hmean, dotL_map_mul_right]
      _ = (1 / L) * dotL S (colMean rows) := by rw [dotL_comm]
      _ = (1 / L) * ((1 / L) * dotL S S) := by rw [hdSm]
  have hsum_dot : (rows.map (fun r => dotL r (colMean rows))).sum =
      (1 / L) * dotL S S := by
    rw [← dotL_vSum W rows hrows (colMean rows), ← hS, hdSm]
  have hexp : (rows.map (fun r => sqNormL (vSub r (colMean rows)))).sum =
      (rows.map sqNormL).sum -
        2 * (rows.map (fun r => dotL r (colMean rows))).sum +
        L * sqNormL (colMean rows) := by
    rw [← sum_map_linear rows sqNormL (fun r => dotL r (colMean rows))
        (sqNormL (colMean rows))]
    congr 1
    apply List.map_congr_left
    intro r hr
    exact sqNormL_vSub_expand r (colMean rows) (by rw [hrows r hr, hmlen])
  rw [hexp, hsum_dot, hmm]
  field_simp
  ring

/-- Strict positivity of the gap when two rows differ. -/
theorem gap_pos (W : ℕ) (rows : List (List ℝ))
    (hrows : ∀ r ∈ rows, r.length = W)
    (hne : ∃ r ∈ rows, ∃ s ∈ rows, r ≠ s) :
    0 < (rows.map sqNormL).sum / (rows.length : ℝ) - sqNormL (colMean rows) := by
  obtain ⟨r, hr, s, hs, hrs⟩ := hne
  have hL : rows ≠ [] := fun hc => by rw [hc] at hr; simp at hr
  have hLpos : 0 < (rows.length : ℝ) := by
    have : rows.length ≠ 0 := fun hc => hL (List.eq_nil_of_length_eq_zero hc)
    positivity
  rw [gap_eq W rows hL hrows]
  apply div_pos _ hLpos
  have hmlen : (colMean rows).length = W := by
    rw [colMean, matW_eq W rows hL hrows, List.length_map,
      vSum_length W rows hrows]
  obtain ⟨w, hw, hwm⟩ : ∃ w ∈ rows, w ≠ colMean rows := by
    by_cases hrm : r = colMean rows
    · exact ⟨s, hs, fun hc => hrs (by rw [hrm, hc])⟩
    · exact ⟨r, hr, hrm⟩
  have hterm : 0 < sqNormL (vSub w (colMean rows)) := by
    rcases lt_or_eq_of_le (sqNormL_nonneg (vSub w (colMean rows))) with hlt | heq
    · exact hlt
    · exfalso
      apply hwm
      exact (vSub_all_zero_iff w (colMean rows)
          (by rw [hrows w hw, hmlen])).mp
        ((sqNormL_eq_zero_iff _).mp heq.symm)
  exact sum_pos_of_mem _
    (fun z hz => by
      rcases List.mem_map.mp hz with ⟨q, _, rfl⟩
      exact sqNormL_nonneg _)
    (sqNormL (vSub w (colMean rows)))
    (List.mem_map.mpr ⟨w, hw, rfl⟩) hterm

/-! ### Claim C7 -/

theorem normRowGuard_length (r : List ℝ) : (normRowGuard r).length = r.length := by
  simp [normRowGuard]

/-- On a row of nonzero norm the NaN guard never fires and the row is
simply divided by its norm. -/
theorem normRowGuard_of_ne (r : List ℝ) (h : sqNormL r ≠ 0) :
    normRowGuard r = r.map (fun x => x / Real.sqrt (sqNormL r)) := by
  have hpos : 0 < sqNormL r := lt_of_le_of_ne (sqNormL_nonneg r) (Ne.symm h)
  have hnrm : Real.sqrt (sqNormL r) ≠ 0 := by
    exact ne_of_gt (Real.sqrt_pos.mpr hpos)
  rw [normRowGuard]
  apply List.map_congr_left
  intro x _
  rw [nanDiv, if_neg (fun hc => hnrm hc.1)]
  rfl

theorem sqNormL_map_div (r : List ℝ) (c : ℝ) :
    sqNormL (r.map (fun x => x / c)) = sqNormL r / (c * c) := by
  induction r with
  | nil => simp [sqNormL_nil]
  | cons x t ih =>
      rw [List.map_cons, sqNormL_cons, sqNormL_cons, ih, add_div]
      congr 1
      rw [div_mul_div_comm]

theorem sqNormL_normRowGuard (r : List ℝ) (h : sqNormL r ≠ 0) :
    sqNormL (normRowGuard r) = 1 := by
  rw [normRowGuard_of_ne r h, sqNormL_map_div,
    Real.mul_self_sqrt (sqNormL_nonneg r)]
  exact div_self h

/-- C7 (amended): with `N ≥ 1`, `W ≥ 1`, and rows not all identical,
`grid_trad` is strictly positive; `grid_angl` is strictly positive under
the further hypotheses that every row has nonzero norm and the normalised
rows are not all equal (rows not all parallel). -/
theorem grid_set_thresholds_pos (data : List (List ℝ)) (N : ℝ) (W : ℕ)
    (hN : 1 ≤ N) (hW : 1 ≤ W) (hrows : ∀ r ∈ data, r.length = W)
    (hne : ∃ r ∈ data, ∃ s ∈ data, r ≠ s)
    (hnz : ∀ r ∈ data, sqNormL r ≠ 0)
    (hdir : ∃ r ∈ data, ∃ s ∈ data, normRowGuard r ≠ normRowGuard s) :
    0 < (grid_set data N).grid_trad ∧ 0 < (grid_set data N).grid_angl := by
  have hNpos : (0:ℝ) < N := lt_of_lt_of_le one_pos hN
  constructor
  · have hgap := gap_pos W data hrows hne
    have htr : (grid_set data N).grid_trad =
        Real.sqrt (2 * ((data.map sqNormL).sum / (data.length : ℝ) -
          sqNormL (colMean data))) / N := rfl
    rw [htr]
    apply div_pos _ hNpos
    apply Real.sqrt_pos.mpr
    linarith
  · have hndrows : ∀ r ∈ grid_newData data, r.length = W := by
      intro r hr
      rcases List.mem_map.mp hr with ⟨q, hq, rfl⟩
      rw [normRowGuard_length]
      exact hrows q hq
    have hndne : ∃ r ∈ grid_newData data, ∃ s ∈ grid_newData data, r ≠ s := by
      obtain ⟨r, hr, s, hs, hrs⟩ := hdir
      exact ⟨normRowGuard r, List.mem_map.mpr ⟨r, hr, rfl⟩,
        normRowGuard s, List.mem_map.mpr ⟨s, hs, rfl⟩, hrs⟩
    have hgap := gap_pos W (grid_newData data) hndrows hndne
    have hnd0 : grid_newData data ≠ [] := by
      obtain ⟨r, hr, _⟩ := hndne
      intro hc
      rw [hc] at hr
      simp at hr
    have hLpos : 0 < ((grid_newData data).length : ℝ) := by
      have : (grid_newData data).length ≠ 0 :=
        fun hc => hnd0 (List.eq_nil_of_length_eq_zero hc)
      positivity
    have hones : (grid_newData data).map sqNormL =
        List.replicate (grid_newData data).length 1 := by
      refine List.eq_replicate_iff.mpr ⟨by simp, ?_⟩
      intro b hb
      rcases List.mem_map.mp hb with ⟨q, hq, rfl⟩
      rcases List.mem_map.mp hq with ⟨p, hp, rfl⟩
      exact sqNormL_normRowGuard p (hnz p hp)
    have hsum1 : ((grid_newData data).map sqNormL).sum =
        ((grid_newData data).length : ℝ) := by
      rw [hones, List.sum_replicate, nsmul_eq_mul, mul_one]
    have hang : (grid_set data N).grid_angl =
        Real.sqrt (1 - sqNormL (colMean (grid_newData data))) / N := rfl
    rw [hang]
    apply div_pos _ hNpos
    apply Real.sqrt_pos.mpr
    have h1 : (1:ℝ) = ((grid_newData data).map sqNormL).sum /
        ((grid_newData data).length : ℝ) := by
      rw [hsum1, div_self (ne_of_gt hLpos)]
    linarith [hgap, h1 ▸ hgap]

/-- Concrete evaluation of `grid_angl` on two parallel one-dimensional
rows: the normalised rows coincide, so the threshold degenerates to 0. -/
theorem grid_angl_parallel_eval : (grid_set [[(1:ℝ)], [2]] 1).grid_angl = 0 := by
  have h1 : Real.sqrt 1 = 1 := Real.sqrt_one
  have h4 : Real.sqrt 4 = 2 := by
    rw [show (4:ℝ) = 2 ^ 2 by norm_num, Real.sqrt_sq (by norm_num : (0:ℝ) ≤ 2)]
  have hang : (grid_set [[(1:ℝ)], [2]] 1).grid_angl =
      Real.sqrt (1 - sqNormL (colMean (grid_newData [[(1:ℝ)], [2]]))) / 1 := rfl
  have hnd : grid_newData [[(1:ℝ)], [2]] = [[1], [1]] := by
    have e1 : sqNormL [(1:ℝ)] = 1 := by norm_num [sqNormL, dotL]
    have e2 : sqNormL [(2:ℝ)] = 4 := by norm_num [sqNormL, dotL]
    rw [grid_newData, List.map_cons, List.map_cons, List.map_nil,
      normRowGuard_of_ne _ (by rw [e1]; norm_num),
      normRowGuard_of_ne _ (by rw [e2]; norm_num), e1, e2, h1, h4]
    norm_num
  rw [hang, hnd]
  have hcm : colMean [[(1:ℝ)], [1]] = [1] := by
    norm_num [colMean, matW, vSum, vAdd, List.replicate]
  rw [hcm]
  have : sqNormL [(1:ℝ)] = 1 := by norm_num [sqNormL, dotL]
  rw [this]
  norm_num

/-- C7 counterexample: the matrix `[[1],[2]]` satisfies every hypothesis
of the claim (`L ≥ 1`, `W ≥ 1`, `N ≥ 1`, rows not all identical, rows not
all of zero norm) yet `grid_angl` is `0`, not strictly positive. -/
theorem grid_thresholds_pos_cex :
    1 ≤ ([[(1:ℝ)], [2]] : List (List ℝ)).length ∧
    (∀ r ∈ [[(1:ℝ)], [2]], r.length = 1) ∧
    (∃ r ∈ [[(1:ℝ)], [2]], ∃ s ∈ [[(1:ℝ)], [2]], r ≠ s) ∧
    (¬ ∀ r ∈ [[(1:ℝ)], [2]], sqNormL r = 0) ∧
    ¬ (0 < (grid_set [[(1:ℝ)], [2]] 1).grid_angl) := by
  refine ⟨by norm_num, ?_, ?_, ?_, ?_⟩
  · intro r hr
    fin_cases hr <;> rfl
  · refine ⟨[1], by simp, [2], by simp, ?_⟩
    intro hc
    norm_num at hc
  · intro hall
    have := hall [1] (by simp)
    rw [show sqNormL [(1:ℝ)] = 1 by norm_num [sqNormL, dotL]] at this
    norm_num at this
  · rw [grid_angl_parallel_eval]
    norm_num

/-- Witness for the amended C7 at the matrix `[[1,0],[0,1]]`. -/
theorem grid_thresholds_pos_witness :
    0 < (grid_set [[(1:ℝ), 0], [0, 1]] 1).grid_trad ∧
    0 < (grid_set [[(1:ℝ), 0], [0, 1]] 1).grid_angl := by
  have e1 : sqNormL [(1:ℝ), 0] = 1 := by norm_num [sqNormL, dotL]
  have e2 : sqNormL [(0:ℝ), 1] = 1 := by norm_num [sqNormL, dotL]
  refine grid_set_thresholds_pos [[(1:ℝ), 0], [0, 1]] 1 2 le_rfl
    (by norm_num) ?_ ?_ ?_ ?_
  · intro r hr
    fin_cases hr <;> rfl
  · refine ⟨[1, 0], by simp, [0, 1], by simp, ?_⟩
    intro hc
    norm_num at hc
  · intro r hr
    fin_cases hr
    · rw [e1]; norm_num
    · rw [e2]; norm_num
  · refine ⟨[1, 0], by simp, [0, 1], by simp, ?_⟩
    rw [normRowGuard_of_ne _ (by rw [e1]; norm_num),
      normRowGuard_of_ne _ (by rw [e2]; norm_num), e1, e2, Real.sqrt_one]
    intro hc
    norm_num at hc

/-! ### Claim C8 -/

/-- Modelled from the spec's words for claim C8 only: the fourth root of
`1 − cos_similarity(a, b)` (the form the claim asserts `hand_dist`
computes). -/
def specAngularFourthRoot (a b : List ℝ) : ℝ :=
  Real.sqrt (Real.sqrt
    (1 - dotL a b / (Real.sqrt (sqNormL a) * Real.sqrt (sqNormL b))))

/-- Cauchy–Schwarz for the row dot product. -/
theorem abs_dotL_le (a : List ℝ) : ∀ b : List ℝ,
    |dotL a b| ≤ Real.sqrt (sqNormL a) * Real.sqrt (sqNormL b) := by
  induction a with
  | nil =>
      intro b
      simp only [dotL_nil_left, abs_zero]
      positivity
  | cons x t ih =>
      intro b
      cases b with
      | nil =>
          simp only [dotL_nil_right, abs_zero]
          positivity
      | cons y s =>
          rw [dotL_cons_cons, sqNormL_cons, sqNormL_cons]
          have hA := sqNormL_nonneg t
          have hB := sqNormL_nonneg s
          have key : |x| * |y| + Real.sqrt (sqNormL t) * Real.sqrt (sqNormL s) ≤
              Real.sqrt (x * x + sqNormL t) * Real.sqrt (y * y + sqNormL s) := by
            have hLnn : 0 ≤ |x| * |y| +
                Real.sqrt (sqNormL t) * Real.sqrt (sqNormL s) := by positivity
            have e1 : Real.sqrt (sqNormL t) ^ 2 = sqNormL t := Real.sq_sqrt hA
            have e2 : Real.sqrt (sqNormL s) ^ 2 = sqNormL s := Real.sq_sqrt hB
            have amgm : 2 * (|x| * Real.sqrt (sqNormL s)) *
                (|y| * Real.sqrt (sqNormL t)) ≤
                (|x| * Real.sqrt (sqNormL s)) ^ 2 +
                  (|y| * Real.sqrt (sqNormL t)) ^ 2 := two_mul_le_add_sq _ _
            have hsq : (|x| * |y| +
                Real.sqrt (sqNormL t) * Real.sqrt (sqNormL s)) ^ 2 ≤
                (x * x + sqNormL t) * (y * y + sqNormL s) := by
              nlinarith [amgm, e1, e2, sq_abs x, sq_abs y,
                Real.sqrt_nonneg (sqNormL t), Real.sqrt_nonneg (sqNormL s),
                abs_nonneg x, abs_nonneg y]
            calc |x| * |y| + Real.sqrt (sqNormL t) * Real.sqrt (sqNormL s)
                = Real.sqrt ((|x| * |y| +
                    Real.sqrt (sqNormL t) * Real.sqrt (sqNormL s)) ^ 2) :=
                  (Real.sqrt_sq hLnn).symm
              _ ≤ Real.sqrt ((x * x + sqNormL t) * (y * y + sqNormL s)) :=
                  Real.sqrt_le_sqrt hsq
              _ = Real.sqrt (x * x + sqNormL t) * Real.sqrt (y * y + sqNormL s) :=
                  Real.sqrt_mul (add_nonneg (mul_self_nonneg x) hA) _
          calc |x * y + dotL t s| ≤ |x * y| + |dotL t s| := abs_add _ _
            _ ≤ |x| * |y| + Real.sqrt (sqNormL t) * Real.sqrt (sqNormL s) := by
                rw [abs_mul]
                linarith [ih s]
            _ ≤ _ := key

theorem cosine_ratio_le_one (a b : List ℝ) (ha : sqNormL a ≠ 0)
    (hb : sqNormL b ≠ 0) :
    dotL a b / (Real.sqrt (sqNormL a) * Real.sqrt (sqNormL b)) ≤ 1 := by
  have hapos : 0 < sqNormL a := lt_of_le_of_ne (sqNormL_nonneg a) (Ne.symm ha)
  have hbpos : 0 < sqNormL b := lt_of_le_of_ne (sqNormL_nonneg b) (Ne.symm hb)
  have hpos : 0 < Real.sqrt (sqNormL a) * Real.sqrt (sqNormL b) :=
    mul_pos (Real.sqrt_pos.mpr hapos) (Real.sqrt_pos.mpr hbpos)
  rw [div_le_one hpos]
  calc dotL a b ≤ |dotL a b| := le_abs_self _
    _ ≤ _ := abs_dotL_le a b

/-- C8 (amended): for every pair of nonzero rows, the angular component
computed by `hand_dist` equals the SQUARE root of `1 − cos_similarity`
(the source computes `((1−cos)²)^0.25 = (1−cos)^0.5`, not the fourth root
the claim states). -/
theorem hand_dist_angular_sqrt (a b : List ℝ) (ha : sqNormL a ≠ 0)
    (hb : sqNormL b ≠ 0) :
    ((hand_dist a [b]).getD 0 (0, 0)).2 =
      Real.sqrt (1 - dotL a b /
        (Real.sqrt (sqNormL a) * Real.sqrt (sqNormL b))) := by
  have h1 : ((hand_dist a [b]).getD 0 (0, 0)).2 = angDist a b := rfl
  have hton : 0 ≤ 1 - dotL a b /
      (Real.sqrt (sqNormL a) * Real.sqrt (sqNormL b)) := by
    linarith [cosine_ratio_le_one a b ha hb]
  rw [h1, angDist, Real.sqrt_sq_eq_abs, abs_of_nonneg hton]

theorem sqrt_two_lt_two : Real.sqrt 2 < 2 := by
  have h4 : Real.sqrt 4 = 2 := by
    rw [show (4:ℝ) = 2 ^ 2 by norm_num, Real.sqrt_sq (by norm_num : (0:ℝ) ≤ 2)]
  have : Real.sqrt 2 < Real.sqrt 4 :=
    Real.sqrt_lt_sqrt (by norm_num) (by norm_num)
  rwa [h4] at this

/-- C8 counterexample: at `a = [1, 0]`, `b = [-1, 0]` (both nonzero) the
code's angular component is `√2`, while the fourth root of `1 − cos`
claimed by the spec is `√√2`, and the two differ. -/
theorem hand_dist_angular_cex :
    ((hand_dist [(1:ℝ), 0] [[-1, 0]]).getD 0 (0, 0)).2 ≠
      specAngularFourthRoot [(1:ℝ), 0] [-1, 0] := by
  have ha : sqNormL [(1:ℝ), 0] = 1 := by norm_num [sqNormL, dotL]
  have hb : sqNormL [(-1:ℝ), 0] = 1 := by norm_num [sqNormL, dotL]
  have hdot : dotL [(1:ℝ), 0] [(-1:ℝ), 0] = -1 := by norm_num [dotL]
  have h4 : Real.sqrt 4 = 2 := by
    rw [show (4:ℝ) = 2 ^ 2 by norm_num, Real.sqrt_sq (by norm_num : (0:ℝ) ≤ 2)]
  have hlhs : ((hand_dist [(1:ℝ), 0] [[-1, 0]]).getD 0 (0, 0)).2 =
      Real.sqrt 2 := by
    have h1 : ((hand_dist [(1:ℝ), 0] [[-1, 0]]).getD 0 (0, 0)).2 =
        angDist [(1:ℝ), 0] [(-1:ℝ), 0] := rfl
    rw [h1, angDist, ha, hb, hdot, Real.sqrt_one]
    rw [show ((1:ℝ) - -1 / (1 * 1)) ^ 2 = 4 by norm_num, h4]
  have hrhs : specAngularFourthRoot [(1:ℝ), 0] [-1, 0] =
      Real.sqrt (Real.sqrt 2) := by
    rw [specAngularFourthRoot, ha, hb, hdot, Real.sqrt_one]
    norm_num
  rw [hlhs, hrhs]
  intro hc
  have h2 : (2:ℝ) = Real.sqrt 2 :=
    (Real.sqrt_inj (by norm_num) (Real.sqrt_nonneg 2)).mp hc
  linarith [sqrt_two_lt_two]

/-- Witness for the amended C8 at concrete nonzero rows. -/
theorem hand_dist_angular_sqrt_witness :
    sqNormL [(1:ℝ), 0] ≠ 0 ∧ sqNormL [(-1:ℝ), 0] ≠ 0 ∧
    ((hand_dist [(1:ℝ), 0] [[-1, 0]]).getD 0 (0, 0)).2 =
      Real.sqrt (1 - dotL [(1:ℝ), 0] [(-1:ℝ), 0] /
        (Real.sqrt (sqNormL [(1:ℝ), 0]) * Real.sqrt (sqNormL [(-1:ℝ), 0]))) :=
  ⟨by norm_num [sqNormL, dotL], by norm_num [sqNormL, dotL],
    hand_dist_angular_sqrt [(1:ℝ), 0] [(-1:ℝ), 0]
      (by norm_num [sqNormL, dotL]) (by norm_num [sqNormL, dotL])⟩

/-! ### Claim C9 -/

/-- The policy claim C9 states, proved of the INTENDED normalisation
`grid_newData` (not of the code: the source's actual guard is mis-indexed
and violates this, see `grid_set_nan_guard_bug`): zero-norm rows become
constant-1 rows, nonzero rows are divided by their norm, every entry is
defined. -/
theorem grid_newData_spec (data : List (List ℝ)) :
    grid_newData data = data.map (fun r =>
      if Real.sqrt (sqNormL r) = 0 then r.map (fun _ => (1:ℝ))
      else r.map (fun x => x / Real.sqrt (sqNormL r))) := by
  rw [grid_newData]
  apply List.map_congr_left
  intro r _
  by_cases h : Real.sqrt (sqNormL r) = 0
  · rw [if_pos h]
    have hsq : sqNormL r = 0 :=
      le_antisymm (Real.sqrt_eq_zero'.mp h) (sqNormL_nonneg r)
    have hz : ∀ x ∈ r, x = 0 := (sqNormL_eq_zero_iff r).mp hsq
    rw [normRowGuard]
    apply List.map_congr_left
    intro x hx
    rw [hz x hx, nanDiv, if_pos ⟨h, rfl⟩]
    rfl
  · rw [if_neg h]
    have hn : sqNormL r ≠ 0 := by
      intro hc
      apply h
      rw [hc, Real.sqrt_zero]
    exact normRowGuard_of_ne r hn

/-- When no row has zero norm, the pre-guard matrix carries no NaN and
equals the intended normalisation entrywise. -/
theorem rawNormalized_of_nonzero (data : List (List ℝ))
    (hnz : ∀ r ∈ data, sqNormL r ≠ 0) :
    rawNormalized data = (grid_newData data).map (fun r => r.map some) := by
  rw [rawNormalized, grid_newData, List.map_map]
  apply List.map_congr_left
  intro r hr
  have hnrm : Real.sqrt (sqNormL r) ≠ 0 :=
    ne_of_gt (Real.sqrt_pos.mpr
      (lt_of_le_of_ne (sqNormL_nonneg r) (Ne.symm (hnz r hr))))
  show r.map (fun x => nanDiv x (Real.sqrt (sqNormL r))) =
    (normRowGuard r).map some
  rw [normRowGuard, List.map_map]
  apply List.map_congr_left
  intro x _
  show nanDiv x (Real.sqrt (sqNormL r)) =
    some ((nanDiv x (Real.sqrt (sqNormL r))).getD 1)
  rw [nanDiv, if_neg (fun hc => hnrm hc.1)]
  rfl

theorem nanCoordsRow_of_no_none (row : List (Option ℝ))
    (h : ∀ e ∈ row, e ≠ none) : ∀ i j, nanCoordsRow i j row = [] := by
  induction row with
  | nil => intro i j; rfl
  | cons e rest ih =>
      intro i j
      cases e with
      | none => exact absurd rfl (h none (List.mem_cons_self _ _))
      | some v =>
          rw [nanCoordsRow]
          exact ih (fun z hz => h z (List.mem_cons_of_mem _ hz)) i (j + 1)

theorem nanCoords_of_no_none (m : List (List (Option ℝ)))
    (h : ∀ row ∈ m, ∀ e ∈ row, e ≠ none) : nanCoords m = [] := by
  rw [nanCoords]
  have key : ∀ i, nanCoordsGo i m = [] := by
    induction m with
    | nil => intro i; rfl
    | cons row rest ih =>
        intro i
        rw [nanCoordsGo,
          nanCoordsRow_of_no_none row (h row (List.mem_cons_self _ _)) i 0,
          ih (fun q hq => h q (List.mem_cons_of_mem _ hq)) (i + 1)]
        rfl
  exact key 0

/-- On every matrix with no zero-norm row the guard never fires, the
source raises nothing, and the actual code agrees with the intended
normalisation `grid_newData`: the idealisation is exact in the only
regime where the rest of the development uses it. -/
theorem grid_newData_agrees_actual (data : List (List ℝ))
    (hnz : ∀ r ∈ data, sqNormL r ≠ 0) :
    grid_newData_actual data =
      some ((grid_newData data).map (fun r => r.map some)) := by
  rw [grid_newData_actual, rawNormalized_of_nonzero data hnz,
    nanCoords_of_no_none]
  · rfl
  · intro row hrow e he
    rcases List.mem_map.mp hrow with ⟨r, _, rfl⟩
    rcases List.mem_map.mp he with ⟨x, _, rfl⟩
    simp

/-- Witness for the agreement lemma at a concrete nonzero-norm matrix. -/
theorem grid_newData_agrees_actual_witness :
    (∀ r ∈ [[(1:ℝ), 0], [0, 1]], sqNormL r ≠ 0) ∧
    grid_newData_actual [[(1:ℝ), 0], [0, 1]] =
      some ((grid_newData [[(1:ℝ), 0], [0, 1]]).map (fun r => r.map some)) := by
  have hnz : ∀ r ∈ [[(1:ℝ), 0], [0, 1]], sqNormL r ≠ 0 := by
    intro r hr
    fin_cases hr <;> norm_num [sqNormL, dotL]
  exact ⟨hnz, grid_newData_agrees_actual [[(1:ℝ), 0], [0, 1]] hnz⟩

theorem rawNormalized_zero_row :
    rawNormalized [[(0:ℝ), 0, 0]] = [[none, none, none]] := by
  have h : sqNormL [(0:ℝ), 0, 0] = 0 := by norm_num [sqNormL, dotL]
  simp [rawNormalized, nanDiv, h]

theorem rawNormalized_mixed :
    rawNormalized [[(1:ℝ), 2], [0, 0]] =
      [[some (1 / Real.sqrt 5), some (2 / Real.sqrt 5)], [none, none]] := by
  have h5 : sqNormL [(1:ℝ), 2] = 5 := by norm_num [sqNormL, dotL]
  have h0 : sqNormL [(0:ℝ), 0] = 0 := by norm_num [sqNormL, dotL]
  have hne : Real.sqrt 5 ≠ 0 := ne_of_gt (Real.sqrt_pos.mpr (by norm_num))
  simp [rawNormalized, nanDiv, h5, h0, hne]

/-- C9 is a code bug: the guard `new_data[tuple(seq[::])] = 1` (line 46)
passes the K NaN-coordinate pairs as one index array per axis instead of
per coordinate.  First conjunct: on the zero-norm sample `[[0,0,0]]`
(W = 3, so K = 3 NaNs) numpy raises `IndexError: too many indices`,
where the claim promises a constant-1 row and no error.  Second
conjunct: on `[[1,2],[0,0]]` (K = 2) the guard writes entries `(1,1)`
and `(0,1)` — a NaN SURVIVES at entry `(1,0)` and the valid entry
`(0,1) = 2/√5` is clobbered to 1 — where the claim promises row 1
becomes `[1,1]` and nothing else changes. -/
theorem grid_set_nan_guard_bug :
    grid_newData_actual [[(0:ℝ), 0, 0]] = none ∧
    grid_newData_actual [[(1:ℝ), 2], [0, 0]] =
      some [[some (1 / Real.sqrt 5), some 1], [none, some 1]] := by
  constructor
  · rw [grid_newData_actual, rawNormalized_zero_row]
    rfl
  · rw [grid_newData_actual, rawNormalized_mixed]
    rfl

/-! ### Claim C4 -/

theorem argsortDesc_singleton (vals : List ℝ) (h : vals.length = 1) :
    argsortDesc vals = [0] := by
  rw [argsortDesc, h]
  rfl

theorem density_GD_single (r : List ℝ) (dt : DistanceType) :
    ∃ g, (Globaldensity_Calculator [r] dt).GD = [g] := by
  have h := density_GD_length [r] dt
  rcases List.length_eq_one.mp (by simpa using h) with ⟨g, hg⟩
  exact ⟨g, hg⟩

theorem density_single (r : List ℝ) (dt : DistanceType) :
    (Globaldensity_Calculator [r] dt).Uniquesample = [r] := by
  simp only [Globaldensity_Calculator]
  rw [argsortDesc_singleton]
  · rfl
  · simp [pi_calculator_length]

theorem vAdd_replicate_zero (u : List ℝ) :
    vAdd (List.replicate u.length 0) u = u := by
  induction u with
  | nil => rfl
  | cons x t ih =>
      simp only [List.length_cons, List.replicate_succ, vAdd_cons, zero_add]
      rw [ih]

theorem colMean_single (u : List ℝ) : colMean [u] = u := by
  rw [colMean]
  have hm : matW [u] = u.length := rfl
  have hv : vSum (matW [u]) [u] = u := by
    rw [hm, vSum, List.foldl_cons, List.foldl_nil, vAdd_replicate_zero]
  rw [hv]
  calc u.map (fun x => 1 / (([u] : List (List ℝ)).length : ℝ) * x)
      = u.map id := by
        apply List.map_congr_left
        intro x _
        norm_num
    _ = u := List.map_id u

theorem ex4_sqNorm : sqNormL [(1:ℝ), 2, 3] = 14 := by
  norm_num [sqNormL, dotL]

theorem ex4_grid_trad : (grid_set [[(1:ℝ), 2, 3]] 1).grid_trad = 0 := by
  have htr : (grid_set [[(1:ℝ), 2, 3]] 1).grid_trad =
      Real.sqrt (2 * ((([[(1:ℝ), 2, 3]].map sqNormL).sum /
        (([[(1:ℝ), 2, 3]] : List (List ℝ)).length : ℝ)) -
        sqNormL (colMean [[(1:ℝ), 2, 3]]))) / 1 := rfl
  rw [htr, colMean_single, ex4_sqNorm]
  have : ([[(1:ℝ), 2, 3]].map sqNormL).sum = 14 := by
    simp [ex4_sqNorm]
  rw [this]
  norm_num

theorem ex4_grid_angl : (grid_set [[(1:ℝ), 2, 3]] 1).grid_angl = 0 := by
  have hang : (grid_set [[(1:ℝ), 2, 3]] 1).grid_angl =
      Real.sqrt (1 - sqNormL (colMean (grid_newData [[(1:ℝ), 2, 3]]))) / 1 := rfl
  have hnd : grid_newData [[(1:ℝ), 2, 3]] =
      [[(1:ℝ), 2, 3].map (fun x => x / Real.sqrt 14)] := by
    rw [grid_newData, List.map_cons, List.map_nil,
      normRowGuard_of_ne _ (by rw [ex4_sqNorm]; norm_num), ex4_sqNorm]
  rw [hang, hnd, colMean_single, sqNormL_map_div, ex4_sqNorm,
    Real.mul_self_sqrt (by norm_num : (0:ℝ) ≤ 14)]
  norm_num

theorem hand_dist_getD_fst_nonneg (a : List ℝ) (rows : List (List ℝ))
    (j : ℕ) : 0 ≤ ((hand_dist a rows).getD j (0, 0)).1 := by
  by_cases hj : j < rows.length
  · rw [hand_dist_getD a rows j hj]
    exact eucDist_nonneg _ _
  · rw [List.getD_eq_default _ _ (by simpa [hand_dist] using not_lt.mp hj)]

/-- With a nonpositive Euclidean threshold, every peak neighbourhood is
empty. -/
theorem peakSeq_nonpos_trad (miu : List (List ℝ)) (gt ga : ℝ)
    (hgt : gt ≤ 0) (i : ℕ) : peakSeq miu gt ga i = [] := by
  rw [peakSeq]
  apply List.filter_eq_nil_iff.mpr
  intro j hj
  simp only [decide_eq_true_eq, not_and]
  intro hd
  exact absurd hd
    (not_lt.mpr (le_trans (by linarith) (hand_dist_getD_fst_nonneg _ _ j)))

/-- With a nonpositive Euclidean threshold and at least one box, the
PeakDetector raises (models `max()` of an empty sequence). -/
theorem peak_none_of_trad_nonpos (miu : List (List ℝ)) (mts : List ℝ)
    (gt ga : ℝ) (hgt : gt ≤ 0) (h : miu ≠ []) :
    ChessBoard_PeakIdentification miu mts gt ga = none := by
  cases miu with
  | nil => exact absurd rfl h
  | cons m rest =>
      rw [ChessBoard_PeakIdentification]
      rw [show (m :: rest).length = rest.length + 1 from rfl,
        List.range_succ_eq_map]
      have hd : peakDecide (m :: rest) mts gt ga 0 = none := by
        rw [peakDecide, peakSeq_nonpos_trad _ _ _ hgt]
        rfl
      simp [peakLoop, hd]

/-- C4 is a code bug: on the single-sample matrix `[[1,2,3]]` (scenario C
of the spec; equally the `L`-fold repetition of one point) both
thresholds are `0`, the strict comparisons exclude every box from every
neighbourhood, and `ChessBoard_PeakIdentification_njit` raises
`ValueError: max() arg is an empty sequence`, so the pipeline returns no
output at all instead of one box, one center and label `[1]`. -/
theorem SODA_single_point_crashes :
    SODA [[(1:ℝ), 2, 3]] 1 DistanceType.euclidean = none := by
  obtain ⟨g, hg⟩ := density_GD_single [(1:ℝ), 2, 3] DistanceType.euclidean
  have hus := density_single [(1:ℝ), 2, 3] DistanceType.euclidean
  have hcd : chessboard_division [[(1:ℝ), 2, 3]] [g] 0 0 =
      some (initChess [(1:ℝ), 2, 3] g) := rfl
  have hpk : ChessBoard_PeakIdentification [[(1:ℝ), 2, 3]] [g] 0 0 = none :=
    peak_none_of_trad_nonpos _ _ _ _ le_rfl (by simp)
  simp only [SODA, hus, hg, ex4_grid_trad, ex4_grid_angl, hcd, initChess, hpk]

/-! ### Concrete two-sample run used by the witnesses -/

theorem one_lt_sqrt_two : (1:ℝ) < Real.sqrt 2 := by
  have : Real.sqrt 1 < Real.sqrt 2 :=
    Real.sqrt_lt_sqrt (by norm_num) (by norm_num)
  rwa [Real.sqrt_one] at this

theorem sqrt_half_lt_one : Real.sqrt (1 / 2) < 1 := by
  have : Real.sqrt (1 / 2) < Real.sqrt 1 :=
    Real.sqrt_lt_sqrt (by norm_num) (by norm_num)
  rwa [Real.sqrt_one] at this

theorem two_sqrt_half : 2 * Real.sqrt (1 / 2) = Real.sqrt 2 := by
  have h4 : Real.sqrt 4 = 2 := by
    rw [show (4:ℝ) = 2 ^ 2 by norm_num, Real.sqrt_sq (by norm_num : (0:ℝ) ≤ 2)]
  rw [show (2:ℝ) * Real.sqrt (1 / 2) = Real.sqrt 4 * Real.sqrt (1 / 2) by
      rw [h4],
    ← Real.sqrt_mul (by norm_num : (0:ℝ) ≤ 4)]
  norm_num

theorem sqrt_two_ne_zero : Real.sqrt 2 ≠ 0 :=
  ne_of_gt (Real.sqrt_pos.mpr (by norm_num))

theorem exg : grid_set [[(1:ℝ), 0], [0, 1]] 1 =
    ⟨1, [1/2, 1/2], [1/2, 1/2], 1, Real.sqrt (1/2)⟩ := by
  norm_num [grid_set, grid_newData, normRowGuard, nanDiv, colMean, matW,
    vSum, vAdd, sqNormL, dotL, GridOut.mk.injEq, List.replicate_succ,
    Function.comp, sqrt_two_ne_zero]

theorem exd : Globaldensity_Calculator [[(1:ℝ), 0], [0, 1]]
    DistanceType.euclidean =
    ⟨[1, 1], [1/2, 1/2], [1/2, 1/2], [[0, 1], [1, 0]]⟩ := by
  have hr2 : List.range 2 = [0, 1] := rfl
  norm_num [Globaldensity_Calculator, pi_calculator, pi_euclid, pi_cosine,
    colMean, matW, vSum, vAdd, vSub, sqNormL, dotL, argsortDesc, insertDesc,
    DensityOut.mk.injEq, List.replicate_succ, Function.comp, sqrt_two_ne_zero,
    hr2]

theorem exchess : chessboard_division [[(0:ℝ), 1], [1, 0]] [1, 1] 1
    (Real.sqrt (1/2)) =
    some ⟨[[0, 1], [1, 0]], [[0, 1], [1, 0]], [1, 1], [1, 1], [1, 1], 2⟩ := by
  have hns1 : ¬ (Real.sqrt 2 < 1) := not_lt.mpr (le_of_lt one_lt_sqrt_two)
  have hns2 : ¬ ((1:ℝ) < Real.sqrt (1/2)) := not_lt.mpr (le_of_lt sqrt_half_lt_one)
  norm_num [chessboard_division, chessStep, chessSQ, hand_dist, eucDist,
    angDist, sqNormL, dotL, vSub, initChess, hns1, hns2, ChessState.mk.injEq]

theorem expeak : ChessBoard_PeakIdentification [[(0:ℝ), 1], [1, 0]] [1, 1] 1
    (Real.sqrt (1/2)) = some ([[(0:ℝ), 1], [1, 0]], 2) := by
  have h0 : (0:ℝ) < Real.sqrt 2 := Real.sqrt_pos.mpr (by norm_num)
  have h1 : (1:ℝ) < Real.sqrt 2 := one_lt_sqrt_two
  have h2 : Real.sqrt 2 < 2 := sqrt_two_lt_two
  have hr2 : List.range 2 = [0, 1] := rfl
  have hinv : 2 * (Real.sqrt 2)⁻¹ = Real.sqrt 2 := by
    have hm := Real.mul_self_sqrt (by norm_num : (0:ℝ) ≤ 2)
    field_simp
  norm_num [ChessBoard_PeakIdentification, peakLoop, peakDecide, peakSeq,
    hand_dist, eucDist, angDist, sqNormL, dotL, vSub, hr2, two_sqrt_half,
    hinv, h0, h1, h2, List.max?]

theorem exrecruit : cloud_member_recruitment [[(0:ℝ), 1], [1, 0]]
    [[(1:ℝ), 0], [0, 1]] = some [1, 0] := by
  have h01 : (0:ℝ) < Real.sqrt 2 + 1 := by positivity
  have h02 : ¬ (Real.sqrt 2 + 1 < 0) := by
    intro hc
    linarith [Real.sqrt_nonneg (2:ℝ)]
  norm_num [cloud_member_recruitment, hand_dist, eucDist, angDist, sqNormL,
    dotL, vSub, scanMin, scanMinGo, h01, h02]

/-- The complete output of the pipeline on the matrix `[[1,0],[0,1]]`
with granularity 1. -/
def exOut : SODAOutput :=
  ⟨[[0, 1], [1, 0]], [2, 1], [[0, 1], [1, 0]], [[0, 1], [1, 0]], [1, 1], 2,
    1, 2, [1/2, 1/2], [1/2, 1/2], 1⟩

theorem exSODA : SODA [[(1:ℝ), 0], [0, 1]] 1 DistanceType.euclidean =
    some exOut := by
  simp only [SODA, exg, exd, exchess, expeak, exrecruit, exOut]
  norm_num [SODAOutput.mk.injEq]

/-- Witness for C1: the two-sample run completes and satisfies every
stated bound. -/
theorem SODA_label_ranges_witness :
    exOut.IDX.length = 2 ∧
    (∀ l ∈ exOut.IDX, 1 ≤ l ∧ l ≤ exOut.C.length) ∧
    exOut.C.length ≤ exOut.BOX_S.length ∧
    exOut.BOX_S.length ≤ 2 := by
  have h := SODA_label_ranges [[(1:ℝ), 0], [0, 1]] 1 DistanceType.euclidean
    exOut (by norm_num) (by norm_num [matW]) (by norm_num) exSODA
  simpa using h

/-- Witness for C2 on a concrete completing aggregation pass. -/
theorem chessboard_memberCount_sum_witness :
    (⟨[[0, 1], [1, 0]], [[0, 1], [1, 0]], [1, 1], [1, 1], [1, 1], 2⟩ :
        ChessState).BOX_S.sum =
      (([[(0:ℝ), 1], [1, 0]] : List (List ℝ)).length : ℝ) :=
  chessboard_memberCount_sum [[(0:ℝ), 1], [1, 0]] [1, 1] 1 (Real.sqrt (1/2))
    ⟨[[0, 1], [1, 0]], [[0, 1], [1, 0]], [1, 1], [1, 1], [1, 1], 2⟩
    (by norm_num) (by norm_num) exchess

/-- Witness for C5 on the concrete two-box peak identification. -/
theorem peak_centers_characterization_witness :
    [[(0:ℝ), 1], [1, 0]] =
      ((List.range ([[(0:ℝ), 1], [1, 0]] : List (List ℝ)).length).filter
        (fun i => noStrongerNeighbor [[(0:ℝ), 1], [1, 0]] [1, 1] 1
          (Real.sqrt (1/2)) i)).map
        (fun i => [[(0:ℝ), 1], [1, 0]].getD i []) :=
  peak_centers_characterization [[(0:ℝ), 1], [1, 0]] [1, 1] 1
    (Real.sqrt (1/2)) [[(0:ℝ), 1], [1, 0]] 2 expeak

theorem chessSQ_ex : chessSQ 1 1 (initChess [(1:ℝ)] 1) [1] ≠ [] := by
  norm_num [chessSQ, hand_dist, eucDist, angDist, sqNormL, dotL, vSub,
    initChess]

/-- Witness for C6 on a concrete absorb step. -/
theorem chessStep_absorb_spec_witness :
    chessSQ 1 1 (initChess [(1:ℝ)] 1) [1] ≠ [] ∧
    (chessStep 1 1 (initChess [(1:ℝ)] 1) [1] 5).BOX =
      (initChess [(1:ℝ)] 1).BOX ∧
    (chessStep 1 1 (initChess [(1:ℝ)] 1) [1] 5).NB =
      (initChess [(1:ℝ)] 1).NB :=
  ⟨chessSQ_ex,
    (chessStep_absorb_spec 1 1 (initChess [(1:ℝ)] 1) [1] 5
      chessSQ_ex).2.2.2.2.2.2.2.1,
    (chessStep_absorb_spec 1 1 (initChess [(1:ℝ)] 1) [1] 5
      chessSQ_ex).2.2.2.2.2.2.2.2⟩

/-! ### Claim C3 -/

/-- C3: `SelfOrganisedDirectionAwareDataPartitioning` is deterministic:
equal input matrices, granularities and distance types give equal outputs
(labels, centers and box tables); the model has no hidden state. -/
theorem SODA_deterministic (data₁ data₂ : List (List ℝ)) (N₁ N₂ : ℝ)
    (dt₁ dt₂ : DistanceType) (hdata : data₁ = data₂) (hN : N₁ = N₂)
    (hdt : dt₁ = dt₂) : SODA data₁ N₁ dt₁ = SODA data₂ N₂ dt₂ := by
  subst hdata
  subst hN
  subst hdt
  rfl

/-- Witness for C3 at a concrete input. -/
theorem SODA_deterministic_witness :
    [[(1:ℝ), 0], [0, 1]] = [[(1:ℝ), 0], [0, 1]] ∧ (1:ℝ) = 1 ∧
    SODA [[(1:ℝ), 0], [0, 1]] 1 DistanceType.euclidean =
      SODA [[(1:ℝ), 0], [0, 1]] 1 DistanceType.euclidean :=
  ⟨rfl, rfl, SODA_deterministic [[(1:ℝ), 0], [0, 1]] [[(1:ℝ), 0], [0, 1]]
    1 1 DistanceType.euclidean DistanceType.euclidean rfl rfl rfl⟩

end

end Lathes
